import Mathlib

/-!
Shallow embedding of `plottools/styles.py` (the style-table builder of the
plottools repository) and proofs about its style-expansion logic.

The Python module mutates a namespace object: it appends to a `style_names`
list, sets style-record attributes named `prefix + name + suffix`, and inserts
the same records into category dictionaries named `prefix + suffix`.  The
embedding models the namespace as an association list of attributes, each
holding either a style record or a category mapping, plus the `style_names`
list.  Python's scalar-or-sequence parameters become an explicit sum type, and
the generation loop is a step function that can fail (modelling the IndexError
raised when an attribute sequence is shorter than the computed style count);
on failure the partially mutated namespace is returned together with the
failing loop index.
-/

/-- Colors as a free term algebra.  Named colors are the strings and hex
values the callers pass around. -/
inductive Color where
  | named : String → Color
  | lightened : Color → Rat → Color
deriving DecidableEq

/-- Modelled from the spec: the source imports `lighter` from the
repository's colors module, which is not under src/.  The spec describes it
only as a deterministic lighten/darken function applied to a face color with
a factor in [0,2] (0 white-ward, 1 unchanged, 2 black-ward), so the model
keeps the lightened color as a formal term. -/
def lighter (c : Color) (f : Rat) : Color := Color.lightened c f

/-- Attribute values stored in a style record: strings (dash styles, marker
symbols, 'none'), numbers (widths, sizes, alpha), colors, and numeric tuples
(matplotlib marker descriptors such as (3, 1, 60)). -/
inductive Val where
  | s : String → Val
  | num : Rat → Val
  | col : Color → Val
  | tup : List Rat → Val
deriving DecidableEq

/-- A style record: a Python dict in insertion order. -/
abbrev StyleDict := List (String × Val)

/-- A namespace attribute holds either a style record
(`setattr(namespace, prefix + name + suffix, d)`) or a category mapping from
style name to record (`getattr(namespace, prefix + suffix)[name] = d`). -/
inductive NSVal where
  | style : StyleDict → NSVal
  | cat : List (String × StyleDict) → NSVal
deriving DecidableEq

/-- Ordered-dict lookup. -/
def lookupPair {α : Type} : List (String × α) → String → Option α
  | [], _ => none
  | (k, v) :: rest, key => if k = key then some v else lookupPair rest key

/-- Ordered-dict write: update in place when the key exists, append when it is
new — exactly Python's dict assignment and `setattr`. -/
def setPair {α : Type} : List (String × α) → String → α → List (String × α)
  | [], key, v => [(key, v)]
  | (k, w) :: rest, key, v =>
      if k = key then (key, v) :: rest else (k, w) :: setPair rest key v

/-- Python's `dict.update`: write every pair of the second dict into the
first. -/
def dUpdate (d : StyleDict) : StyleDict → StyleDict
  | [] => d
  | (k, v) :: rest => dUpdate (setPair d k v) rest

/-- The namespace the generators mutate (lines 131-161 and friends).  A fresh
namespace has no `style_names` attribute; the source creates it as the empty
list on first use, so the model starts from the empty list, which is
observationally the same because every access is a membership test or an
append. -/
structure Namespace where
  style_names : List String
  attrs : List (String × NSVal)
deriving DecidableEq

def Namespace.empty : Namespace := ⟨[], []⟩

def getAttr (ns : Namespace) (key : String) : Option NSVal := lookupPair ns.attrs key

def setAttr (ns : Namespace) (key : String) (v : NSVal) : Namespace :=
  { ns with attrs := setPair ns.attrs key v }

/-- Models lines 136-138 etc.: create the category dict `prefix + suffix` when
the attribute is absent. -/
def ensureCat (ns : Namespace) (ln : String) : Namespace :=
  match getAttr ns ln with
  | some _ => ns
  | none => setAttr ns ln (NSVal.cat [])

/-- Models lines 153-154: append the name to `style_names` unless present. -/
def addStyleName (ns : Namespace) (name : String) : Namespace :=
  if name ∈ ns.style_names then ns
  else { ns with style_names := ns.style_names ++ [name] }

/-- Models `setattr(namespace, sn, d)` followed by
`getattr(namespace, ln)[name] = d` (lines 160-161, 269-270, 413-414).  When
the attribute `ln` does not hold a category mapping the category write is
dropped; in the source that corner is reachable only when a style attribute
name collides with a category name (empty style name), which no caller
exercises. -/
def register (ns : Namespace) (sn ln name : String) (d : StyleDict) : Namespace :=
  let ns1 := setAttr ns sn (NSVal.style d)
  match getAttr ns1 ln with
  | some (NSVal.cat m) => setAttr ns1 ln (NSVal.cat (setPair m name d))
  | _ => ns1

/-- A Python scalar-or-sequence parameter: `isinstance(x, (tuple, list))`
distinguishes the two shapes. -/
inductive PArg (α : Type) where
  | one : α → PArg α
  | seq : List α → PArg α
deriving DecidableEq

/-- Models `x[k] if isinstance(x, (tuple, list)) else x`; `none` is the
IndexError raised when a sequence is shorter than the loop needs. -/
def pargIndex {α : Type} : PArg α → Nat → Option α
  | PArg.one a, _ => some a
  | PArg.seq xs, k => xs.get? k

/-- The length a parameter contributes to the style count: sequences report
their length, scalars contribute nothing. -/
def pargLen {α : Type} : PArg α → Option Nat
  | PArg.one _ => none
  | PArg.seq xs => some xs.length

/-- The `names` parameter: a single string (possibly a template containing a
'%' placeholder) or a list of names. -/
inductive NamesArg where
  | str : String → NamesArg
  | seq : List String → NamesArg
deriving DecidableEq

/-- Python's `'%' in names` membership test, written on the character list so
that it evaluates inside the kernel. -/
def strContains (s : String) (c : Char) : Bool := s.data.contains c

/-- Replace the first "%d" in the character list by the decimal rendering of
`i`. -/
def fmtChars (i : Nat) : List Char → List Char
  | [] => []
  | '%' :: 'd' :: rest => (Nat.repr i).data ++ rest
  | ch :: rest => ch :: fmtChars i rest

/-- Models Python %-formatting `names % (k+1)` for the only shape the callers
use, a single decimal placeholder: the first "%d" is replaced by the decimal
rendering of the index. -/
def fmtName (s : String) (i : Nat) : String := String.mk (fmtChars i s.data)

/-- Models lines 146-152: the name used at loop index `k`. -/
def getName (names : NamesArg) (k : Nat) : Option String :=
  match names with
  | NamesArg.seq xs => xs.get? k
  | NamesArg.str s => some (if strContains s '%' then fmtName s (k + 1) else s)

def namesLen (names : NamesArg) : Option Nat :=
  match names with
  | NamesArg.seq xs => some xs.length
  | NamesArg.str _ => none

/-- Models the accumulation
`if isinstance(x, (tuple, list)) and len(x) > n: n = len(x)`. -/
def bump (n : Nat) : Option Nat → Nat
  | some m => if m > n then m else n
  | none => n

/-- Models lines 139-143 etc.: the number of styles to generate, starting
from 1. -/
def styleCount (lens : List (Option Nat)) : Nat := lens.foldl bump 1

/-- Line-style record, line 159:
`dict(color=c, linestyle=ds, linewidth=lw, **kwargs)`. -/
def lineDict (c : Color) (ds : Val) (lw : Rat) (kwargs : StyleDict) : StyleDict :=
  ("color", Val.col c) :: ("linestyle", ds) :: ("linewidth", Val.num lw) :: kwargs

/-- A marker: the symbol together with the factor scaling the marker size
(lines 214-217). -/
abbrev Marker := Val × Rat

/-- Point-style record, lines 267-268. -/
def pointDict (c : Color) (ds : Val) (lw : Rat) (mk : Marker) (ms mc mw : Rat)
    (kwargs : StyleDict) : StyleDict :=
  ("color", Val.col c) :: ("linestyle", ds) :: ("linewidth", Val.num lw) ::
  ("marker", mk.1) :: ("markersize", Val.num (mk.2 * ms)) ::
  ("markeredgecolor", Val.col (lighter c mc)) :: ("markeredgewidth", Val.num mw) :: kwargs

/-- Fill-style record, lines 406-412: `dict(facecolor=c, **kwargs)` followed
by the sub-variant specific `update`. -/
def fillDict (c : Color) (ec ew fa : Rat) (kwargs : StyleDict) (j : Nat) : StyleDict :=
  let d := ("facecolor", Val.col c) :: kwargs
  if j = 0 then dUpdate d [("edgecolor", Val.col (lighter c ec)), ("linewidth", Val.num ew)]
  else if j = 1 then dUpdate d [("edgecolor", Val.s "none")]
  else if j = 2 then dUpdate d [("edgecolor", Val.s "none"), ("alpha", Val.num fa)]
  else d

/-- The attribute lookups of one `make_linestyles` loop iteration
(lines 156-159); `none` when one of them raises IndexError. -/
def lineRecAt (colors : PArg Color) (dashes : PArg Val) (lws : PArg Rat)
    (kwargs : StyleDict) (k : Nat) : Option StyleDict :=
  match pargIndex colors k, pargIndex dashes k, pargIndex lws k with
  | some c, some ds, some lw => some (lineDict c ds lw kwargs)
  | _, _, _ => none

/-- Line 263: `mk = markers[k] if len(markers) > 1 else markers[0]`. -/
def markerAt (markers : List Marker) (k : Nat) : Option Marker :=
  if markers.length > 1 then markers.get? k else markers.get? 0

/-- The attribute lookups of one `make_pointstyles` loop iteration
(lines 260-268). -/
def pointRecAt (colors : PArg Color) (dashes : PArg Val) (lws : PArg Rat)
    (markers : List Marker) (msizes mecs mews : PArg Rat) (kwargs : StyleDict)
    (k : Nat) : Option StyleDict :=
  match pargIndex colors k, pargIndex dashes k, pargIndex lws k, markerAt markers k,
        pargIndex msizes k, pargIndex mecs k, pargIndex mews k with
  | some c, some ds, some lw, some mk, some ms, some mc, some mw =>
      some (pointDict c ds lw mk ms mc mw kwargs)
  | _, _, _, _, _, _, _ => none

/-- The attribute lookups of one `make_fillstyles` sub-variant write for the
with-edge variant (`j = 0`), used for single-suffix calls. -/
def fillRecAt (colors : PArg Color) (ecs ews fas : PArg Rat) (kwargs : StyleDict)
    (k : Nat) : Option StyleDict :=
  match pargIndex colors k, pargIndex ecs k, pargIndex ews k, pargIndex fas k with
  | some c, some ec, some ew, some fa => some (fillDict c ec ew fa kwargs 0)
  | _, _, _, _ => none

/-- One loop iteration shared by `make_linestyles` and `make_pointstyles`
(lines 145-161 / 249-270): resolve the name (IndexError possible when `names`
is a short sequence), append it to `style_names`, resolve the attribute
lookups (IndexError possible), then register the record.  The Bool reports
whether the iteration completed. -/
def expStep (pfx suffix : String) (nameAt : Nat → Option String)
    (recAt : Nat → Option StyleDict) (k : Nat) (ns : Namespace) : Namespace × Bool :=
  match nameAt k with
  | none => (ns, false)
  | some name =>
      let ns1 := addStyleName ns name
      match recAt k with
      | none => (ns1, false)
      | some d => (register ns1 (pfx ++ name ++ suffix) (pfx ++ suffix) name d, true)

/-- The `for k in range(n)` loop; it stops at the first failing iteration and
returns the partially mutated namespace together with the failing index. -/
def goLoop (step : Nat → Namespace → Namespace × Bool) :
    Nat → Nat → Namespace → Namespace × Option Nat
  | _, 0, ns => (ns, none)
  | k, m + 1, ns =>
      match step k ns with
      | (ns1, true) => goLoop step (k + 1) m ns1
      | (ns1, false) => (ns1, some k)

/-- The style count of a `make_linestyles` call (lines 139-143). -/
def lineN (names : NamesArg) (colors : PArg Color) (dashes : PArg Val)
    (lws : PArg Rat) : Nat :=
  styleCount [namesLen names, pargLen colors, pargLen dashes, pargLen lws]

/-- Shallow embedding of `make_linestyles` (styles.py lines 71-161).  The
source's keyword defaults (dashes='-', lws=1) are supplied explicitly by the
callers here; the implicit `__main__` default namespace is out of scope, the
namespace is always passed.  The returned index is the loop iteration at
which an attribute lookup raised IndexError, `none` when the call
completed. -/
def make_linestyles (pfx : String) (names : NamesArg) (suffix : String)
    (colors : PArg Color) (dashes : PArg Val) (lws : PArg Rat)
    (ns : Namespace) (kwargs : StyleDict) : Namespace × Option Nat :=
  let ns := ensureCat ns (pfx ++ suffix)
  goLoop (expStep pfx suffix (getName names) (lineRecAt colors dashes lws kwargs)) 0
    (lineN names colors dashes lws) ns

/-- The style count of a `make_pointstyles` call (lines 242-247); `markers`
is always a tuple or list in the source, so it always participates. -/
def pointN (names : NamesArg) (colors : PArg Color) (dashes : PArg Val) (lws : PArg Rat)
    (markers : List Marker) (msizes mecs mews : PArg Rat) : Nat :=
  styleCount [namesLen names, pargLen colors, pargLen dashes, pargLen lws,
    some markers.length, pargLen msizes, pargLen mecs, pargLen mews]

/-- Shallow embedding of `make_pointstyles` (styles.py lines 164-270). -/
def make_pointstyles (pfx : String) (names : NamesArg) (suffix : String)
    (colors : PArg Color) (dashes : PArg Val) (lws : PArg Rat)
    (markers : List Marker) (msizes mecs mews : PArg Rat)
    (ns : Namespace) (kwargs : StyleDict) : Namespace × Option Nat :=
  let ns := ensureCat ns (pfx ++ suffix)
  goLoop (expStep pfx suffix (getName names)
      (pointRecAt colors dashes lws markers msizes mecs mews kwargs)) 0
    (pointN names colors dashes lws markers msizes mecs mews) ns

/-- The inner loop of one `make_fillstyles` iteration (lines 399-414): walk
the suffixes with their position `j`, skip the absent ones, resolve the
attribute lookups and register the sub-variant record. -/
def fillGo (pfx name : String) (colors : PArg Color) (ecs ews fas : PArg Rat)
    (kwargs : StyleDict) (k : Nat) :
    List (Option String) → Nat → Namespace → Namespace × Bool
  | [], _, ns => (ns, true)
  | none :: rest, j, ns => fillGo pfx name colors ecs ews fas kwargs k rest (j + 1) ns
  | some suf :: rest, j, ns =>
      match pargIndex colors k, pargIndex ecs k, pargIndex ews k, pargIndex fas k with
      | some c, some ec, some ew, some fa =>
          fillGo pfx name colors ecs ews fas kwargs k rest (j + 1)
            (register ns (pfx ++ name ++ suf) (pfx ++ suf) name (fillDict c ec ew fa kwargs j))
      | _, _, _, _ => (ns, false)

/-- One `make_fillstyles` loop iteration (lines 389-414). -/
def fillStep (pfx : String) (names : NamesArg) (suffixes : List (Option String))
    (colors : PArg Color) (ecs ews fas : PArg Rat) (kwargs : StyleDict)
    (k : Nat) (ns : Namespace) : Namespace × Bool :=
  match getName names k with
  | none => (ns, false)
  | some name =>
      fillGo pfx name colors ecs ews fas kwargs k suffixes 0 (addStyleName ns name)

/-- Lines 378-382: create the category dict of every present suffix. -/
def ensureCats (ns : Namespace) (pfx : String) : List (Option String) → Namespace
  | [] => ns
  | none :: rest => ensureCats ns pfx rest
  | some suf :: rest => ensureCats (ensureCat ns (pfx ++ suf)) pfx rest

/-- The style count of a `make_fillstyles` call (lines 383-387). -/
def fillN (names : NamesArg) (colors : PArg Color) (ecs ews fas : PArg Rat) : Nat :=
  styleCount [namesLen names, pargLen colors, pargLen ecs, pargLen ews, pargLen fas]

/-- Shallow embedding of `make_fillstyles` (styles.py lines 312-414). -/
def make_fillstyles (pfx : String) (names : NamesArg) (suffixes : List (Option String))
    (colors : PArg Color) (ecs ews fas : PArg Rat)
    (ns : Namespace) (kwargs : StyleDict) : Namespace × Option Nat :=
  let ns := ensureCats ns pfx suffixes
  goLoop (fillStep pfx names suffixes colors ecs ews fas kwargs) 0
    (fillN names colors ecs ews fas) ns

/-- Shallow embedding of `make_linepointstyles` (styles.py lines 273-309).
Python tests each prefix for truthiness; the empty string is the falsy value
the repository's callers use, so prefixes are plain strings here and a prefix
is absent exactly when it is empty.  An IndexError in a sub-call aborts the
remaining sub-calls, as an exception does in the source. -/
def make_linepointstyles (pfxs : String × String × String) (names : NamesArg)
    (suffix : String) (colors : PArg Color) (dashes : PArg Val) (lws : PArg Rat)
    (markers : List Marker) (msizes mecs mews : PArg Rat)
    (ns : Namespace) (kwargs : StyleDict) : Namespace × Option Nat :=
  let r1 :=
    if pfxs.1 ≠ "" then make_linestyles pfxs.1 names suffix colors dashes lws ns kwargs
    else (ns, none)
  match r1 with
  | (ns, some k) => (ns, some k)
  | (ns, none) =>
    let r2 :=
      if pfxs.2.1 ≠ "" then
        make_pointstyles pfxs.2.1 names suffix colors (PArg.one (Val.s "none")) (PArg.one 0)
          markers msizes mecs mews ns kwargs
      else (ns, none)
    match r2 with
    | (ns, some k) => (ns, some k)
    | (ns, none) =>
      if pfxs.2.2 ≠ "" then
        make_pointstyles pfxs.2.2 names suffix colors dashes lws
          markers msizes mecs mews ns kwargs
      else (ns, none)

/-- Shallow embedding of `plot_styles` (styles.py lines 417-490): three
`make_linepointstyles` calls (major, circular, minor) followed by the fill
styles. -/
def plot_styles (names : NamesArg) (colors : PArg Color) (dashes : PArg Val)
    (markers : List Marker) (lwthick lwthin mlarge msmall mec mew fillalpha : Rat)
    (ns : Namespace) : Namespace × Option Nat :=
  let r1 := make_linepointstyles ("ls", "ps", "lps") names "" colors dashes
    (PArg.one lwthick) markers (PArg.one mlarge) (PArg.one mec) (PArg.one mew) ns []
  match r1 with
  | (ns, some k) => (ns, some k)
  | (ns, none) =>
    let r2 := make_linepointstyles ("", "ps", "lps") names "c" colors dashes
      (PArg.one lwthick) [(Val.s "o", 1)] (PArg.one mlarge) (PArg.one mec) (PArg.one mew) ns []
    match r2 with
    | (ns, some k) => (ns, some k)
    | (ns, none) =>
      let r3 := make_linepointstyles ("ls", "ps", "lps") names "m" colors dashes
        (PArg.one lwthin) [(Val.s "o", 1)] (PArg.one msmall) (PArg.one mec) (PArg.one mew) ns []
      match r3 with
      | (ns, some k) => (ns, some k)
      | (ns, none) =>
        make_fillstyles "fs" names [some "", some "s", some "a"] colors
          (PArg.one mec) (PArg.one mew) (PArg.one fillalpha) ns []

/-- Shallow embedding of `color_cycler` (styles.py lines 493-508): the list
comprehension `[palette[c] for c in colors if c in palette]`.  The store into
the rc configuration is the downstream sink and out of scope, so the model
returns the cycle it hands over; the lookup succeeds exactly when the `in`
test does, which is what `filterMap` expresses. -/
def color_cycler (palette : List (String × Color)) (colors : List String) : List Color :=
  colors.filterMap fun c => lookupPair palette c

/-- One generator call, for reasoning about arbitrary call sequences. -/
inductive GenCall where
  | line : String → NamesArg → String → PArg Color → PArg Val → PArg Rat →
      StyleDict → GenCall
  | point : String → NamesArg → String → PArg Color → PArg Val → PArg Rat →
      List Marker → PArg Rat → PArg Rat → PArg Rat → StyleDict → GenCall
  | fill : String → NamesArg → List (Option String) → PArg Color → PArg Rat →
      PArg Rat → PArg Rat → StyleDict → GenCall

def runCall (c : GenCall) (ns : Namespace) : Namespace × Option Nat :=
  match c with
  | GenCall.line pfx names suffix colors dashes lws kwargs =>
      make_linestyles pfx names suffix colors dashes lws ns kwargs
  | GenCall.point pfx names suffix colors dashes lws markers msizes mecs mews kwargs =>
      make_pointstyles pfx names suffix colors dashes lws markers msizes mecs mews ns kwargs
  | GenCall.fill pfx names suffixes colors ecs ews fas kwargs =>
      make_fillstyles pfx names suffixes colors ecs ews fas ns kwargs

/-- The names argument of a call. -/
def callNames : GenCall → NamesArg
  | GenCall.line _ names _ _ _ _ _ => names
  | GenCall.point _ names _ _ _ _ _ _ _ _ _ => names
  | GenCall.fill _ names _ _ _ _ _ _ => names

/-- The style count of a call. -/
def callCount : GenCall → Nat
  | GenCall.line _ names _ colors dashes lws _ => lineN names colors dashes lws
  | GenCall.point _ names _ colors dashes lws markers msizes mecs mews _ =>
      pointN names colors dashes lws markers msizes mecs mews
  | GenCall.fill _ names _ colors ecs ews fas _ => fillN names colors ecs ews fas

/-- Run a sequence of generator calls; an exception aborts the rest. -/
def runCalls : List GenCall → Namespace → Namespace × Option Nat
  | [], ns => (ns, none)
  | c :: rest, ns =>
      match runCall c ns with
      | (ns1, none) => runCalls rest ns1
      | (ns1, some k) => (ns1, some k)

/-- The style names generated by the first `k` loop iterations. -/
def namesUpTo (nm : Nat → String) : Nat → List String
  | 0 => []
  | k + 1 => namesUpTo nm k ++ [nm k]

/-- The category entries generated by the first `k` loop iterations. -/
def catUpTo (nm : Nat → String) (d : Nat → StyleDict) : Nat → List (String × StyleDict)
  | 0 => []
  | k + 1 => catUpTo nm d k ++ [(nm k, d k)]

/-- The style attributes generated by the first `k` loop iterations. -/
def stylesUpTo (pfx suffix : String) (nm : Nat → String) (d : Nat → StyleDict) :
    Nat → List (String × NSVal)
  | 0 => []
  | k + 1 => stylesUpTo pfx suffix nm d k ++
      [(pfx ++ nm k ++ suffix, NSVal.style (d k))]

/-- The namespace reached after `k` successful iterations of an expander loop
started on the fresh namespace, when the per-index names are pairwise
distinct. -/
def expState (pfx suffix : String) (nm : Nat → String) (d : Nat → StyleDict) (k : Nat) :
    Namespace :=
  ⟨namesUpTo nm k,
    (pfx ++ suffix, NSVal.cat (catUpTo nm d k)) :: stylesUpTo pfx suffix nm d k⟩

/-- The namespace reached after `k ≥ 1` iterations of an expander loop whose
name is the same scalar string at every index: each iteration overwrites the
previous record. -/
def constState (pfx suffix nm : String) (d : Nat → StyleDict) (k : Nat) : Namespace :=
  ⟨[nm],
    [(pfx ++ suffix, NSVal.cat [(nm, d (k - 1))]),
     (pfx ++ nm ++ suffix, NSVal.style (d (k - 1)))]⟩

/-- The invariant of claim C4: the ordered name list holds no duplicates and
every name present in a category mapping is present in the name list. -/
def RegInv (ns : Namespace) : Prop :=
  ns.style_names.Nodup ∧
  ∀ key m, getAttr ns key = some (NSVal.cat m) → ∀ p ∈ m, p.1 ∈ ns.style_names

-- ## Association-list, string, and style-count lemmas

theorem lookupPair_cons_eq {α : Type} (k : String) (v : α) (rest : List (String × α)) :
    lookupPair ((k, v) :: rest) k = some v := by
  simp [lookupPair]

theorem lookupPair_cons_ne {α : Type} {k key : String} (h : k ≠ key) (v : α)
    (rest : List (String × α)) : lookupPair ((k, v) :: rest) key = lookupPair rest key := by
  simp [lookupPair, h]

theorem lookupPair_none {α : Type} {key : String} :
    ∀ {m : List (String × α)}, (∀ p ∈ m, p.1 ≠ key) → lookupPair m key = none := by
  intro m
  induction m with
  | nil => intro _; rfl
  | cons hd tl ih =>
      intro h
      have h1 : hd.1 ≠ key := h hd (by simp)
      cases hd with
      | mk k v =>
          rw [lookupPair_cons_ne h1]
          exact ih fun p hp => h p (by simp [hp])

theorem lookupPair_append_left {α : Type} {m : List (String × α)} {key : String} {v : α}
    (h : lookupPair m key = some v) (m' : List (String × α)) :
    lookupPair (m ++ m') key = some v := by
  induction m with
  | nil => simp [lookupPair] at h
  | cons hd tl ih =>
      cases hd with
      | mk k w =>
          by_cases hk : k = key
          · subst hk
            rw [lookupPair_cons_eq] at h
            simpa [lookupPair_cons_eq] using h
          · rw [lookupPair_cons_ne hk] at h
            simpa [lookupPair_cons_ne hk] using ih h

theorem lookupPair_append_right {α : Type} {m : List (String × α)} {key : String}
    (h : lookupPair m key = none) (m' : List (String × α)) :
    lookupPair (m ++ m') key = lookupPair m' key := by
  induction m with
  | nil => rfl
  | cons hd tl ih =>
      cases hd with
      | mk k w =>
          by_cases hk : k = key
          · subst hk; rw [lookupPair_cons_eq] at h; cases h
          · rw [lookupPair_cons_ne hk] at h
            rw [List.cons_append, lookupPair_cons_ne hk]
            exact ih h

theorem setPair_cons_eq {α : Type} (k : String) (w v : α) (rest : List (String × α)) :
    setPair ((k, w) :: rest) k v = (k, v) :: rest := by
  simp [setPair]

theorem setPair_cons_ne {α : Type} {k key : String} (h : k ≠ key) (w v : α)
    (rest : List (String × α)) :
    setPair ((k, w) :: rest) key v = (k, w) :: setPair rest key v := by
  simp [setPair, h]

theorem setPair_append {α : Type} {key : String} {v : α} :
    ∀ {m : List (String × α)}, (∀ p ∈ m, p.1 ≠ key) → setPair m key v = m ++ [(key, v)] := by
  intro m
  induction m with
  | nil => intro _; rfl
  | cons hd tl ih =>
      intro h
      cases hd with
      | mk k w =>
          have h1 : k ≠ key := h (k, w) (by simp)
          rw [setPair_cons_ne h1, List.cons_append, ih fun p hp => h p (by simp [hp])]

theorem mem_setPair {α : Type} {key : String} {v : α} :
    ∀ {m : List (String × α)} {p : String × α}, p ∈ setPair m key v → p ∈ m ∨ p = (key, v) := by
  intro m
  induction m with
  | nil => intro p hp; simp [setPair] at hp; simp [hp]
  | cons hd tl ih =>
      intro p hp
      cases hd with
      | mk k w =>
          by_cases hk : k = key
          · subst hk
            rw [setPair_cons_eq] at hp
            rcases List.mem_cons.mp hp with h | h
            · right; exact h
            · left; exact List.mem_cons_of_mem _ h
          · rw [setPair_cons_ne hk] at hp
            rcases List.mem_cons.mp hp with h | h
            · left; simp [h]
            · rcases ih h with h' | h'
              · left; exact List.mem_cons_of_mem _ h'
              · right; exact h'

-- string lemmas

theorem str_data_inj {a b : String} (h : a.data = b.data) : a = b := by
  cases a; cases b; exact congrArg String.mk h

theorem str_mid_inj {pfx suffix a b : String} (h : pfx ++ a ++ suffix = pfx ++ b ++ suffix) :
    a = b := by
  have hd := congrArg String.data h
  simp only [String.data_append, List.append_assoc] at hd
  exact str_data_inj (List.append_cancel_right (List.append_cancel_left hd))

theorem str_mid_ne {pfx suffix nm : String} (h : nm ≠ "") :
    pfx ++ nm ++ suffix ≠ pfx ++ suffix := by
  intro he
  apply h
  have hd := congrArg String.data he
  simp only [String.data_append, List.append_assoc] at hd
  have h2 := List.append_cancel_left hd
  have h3 := congrArg List.length h2
  simp only [List.length_append] at h3
  have h4 : nm.data = [] := List.length_eq_zero.mp (by omega)
  exact str_data_inj (by simp [h4])

theorem str_left_inj {pfx a b : String} (h : pfx ++ a = pfx ++ b) : a = b := by
  have hd := congrArg String.data h
  simp only [String.data_append] at hd
  exact str_data_inj (List.append_cancel_left hd)

-- count lemmas

theorem bump_one_some {n : Nat} (h : 1 ≤ n) : bump 1 (some n) = n := by
  simp only [bump]
  split <;> omega

theorem foldl_bump_keep {n : Nat} :
    ∀ rest : List (Option Nat), (∀ o ∈ rest, ∀ m, o = some m → m ≤ n) →
      rest.foldl bump n = n := by
  intro rest
  induction rest with
  | nil => intro _; rfl
  | cons hd tl ih =>
      intro h
      have hh : bump n hd = n := by
        cases hd with
        | none => rfl
        | some m =>
            have := h (some m) (by simp) m rfl
            simp only [bump]
            split <;> omega
      rw [List.foldl_cons, hh]
      exact ih fun o ho m hm => h o (by simp [ho]) m hm

theorem styleCount_head {n : Nat} (h : 1 ≤ n) {rest : List (Option Nat)}
    (hr : ∀ o ∈ rest, ∀ m, o = some m → m ≤ n) : styleCount (some n :: rest) = n := by
  rw [styleCount, List.foldl_cons, bump_one_some h]
  exact foldl_bump_keep rest hr

-- ## Namespace operation lemmas

theorem lookupPair_setPair {α : Type} :
    ∀ (m : List (String × α)) (key : String) (v : α) (key' : String),
      lookupPair (setPair m key v) key' =
        if key = key' then some v else lookupPair m key' := by
  intro m
  induction m with
  | nil =>
      intro key v key'
      simp [setPair, lookupPair]
  | cons hd tl ih =>
      intro key v key'
      cases hd with
      | mk k w =>
          by_cases hk : k = key
          · subst hk
            rw [setPair_cons_eq]
            by_cases hk' : k = key'
            · subst hk'; simp [lookupPair_cons_eq]
            · rw [lookupPair_cons_ne hk', if_neg hk', lookupPair_cons_ne hk']
          · rw [setPair_cons_ne hk]
            by_cases hk' : k = key'
            · subst hk'
              have : key ≠ k := fun he => hk he.symm
              rw [lookupPair_cons_eq, if_neg this, lookupPair_cons_eq]
            · rw [lookupPair_cons_ne hk', ih, lookupPair_cons_ne hk']

theorem addStyleName_attrs (ns : Namespace) (name : String) :
    (addStyleName ns name).attrs = ns.attrs := by
  unfold addStyleName
  split <;> rfl

theorem addStyleName_mem (ns : Namespace) (name : String) :
    name ∈ (addStyleName ns name).style_names := by
  unfold addStyleName
  split
  · assumption
  · simp

theorem addStyleName_mono {ns : Namespace} {x : String} (h : x ∈ ns.style_names)
    (name : String) : x ∈ (addStyleName ns name).style_names := by
  unfold addStyleName
  split
  · exact h
  · simp [h]

theorem addStyleName_isPrefix (ns : Namespace) (name : String) :
    ns.style_names <+: (addStyleName ns name).style_names := by
  unfold addStyleName
  split
  · exact List.prefix_refl _
  · exact ⟨[name], rfl⟩

theorem addStyleName_nodup {ns : Namespace} (h : ns.style_names.Nodup) (name : String) :
    (addStyleName ns name).style_names.Nodup := by
  unfold addStyleName
  split
  · exact h
  · rename_i hmem
    simp only [List.nodup_append, List.nodup_cons, List.nodup_nil, and_true, true_and]
    exact ⟨h, by simpa using hmem⟩

theorem register_style_names (ns : Namespace) (sn ln name : String) (d : StyleDict) :
    (register ns sn ln name d).style_names = ns.style_names := by
  unfold register
  dsimp only
  split <;> rfl

theorem setAttr_style_names (ns : Namespace) (key : String) (v : NSVal) :
    (setAttr ns key v).style_names = ns.style_names := rfl

theorem getAttr_setAttr (ns : Namespace) (key : String) (v : NSVal) (key' : String) :
    getAttr (setAttr ns key v) key' = if key = key' then some v else getAttr ns key' := by
  unfold getAttr setAttr
  exact lookupPair_setPair ns.attrs key v key'

theorem ensureCat_style_names (ns : Namespace) (ln : String) :
    (ensureCat ns ln).style_names = ns.style_names := by
  unfold ensureCat
  split <;> rfl

-- ## Expander-loop state lemmas

theorem mem_namesUpTo {nm : Nat → String} :
    ∀ {k : Nat} {x : String}, x ∈ namesUpTo nm k ↔ ∃ i, i < k ∧ nm i = x := by
  intro k
  induction k with
  | zero => intro x; simp [namesUpTo]
  | succ k ih =>
      intro x
      rw [namesUpTo]
      simp only [List.mem_append, List.mem_singleton, ih]
      constructor
      · rintro (⟨i, hi, he⟩ | he)
        · exact ⟨i, by omega, he⟩
        · exact ⟨k, by omega, he.symm⟩
      · rintro ⟨i, hi, he⟩
        by_cases hik : i < k
        · exact Or.inl ⟨i, hik, he⟩
        · have : i = k := by omega
          subst this
          exact Or.inr he.symm

theorem keys_catUpTo {nm : Nat → String} {d : Nat → StyleDict} :
    ∀ {k : Nat} {p : String × StyleDict}, p ∈ catUpTo nm d k → ∃ i, i < k ∧ p.1 = nm i := by
  intro k
  induction k with
  | zero => intro p hp; simp [catUpTo] at hp
  | succ k ih =>
      intro p hp
      rw [catUpTo] at hp
      rcases List.mem_append.mp hp with h | h
      · rcases ih h with ⟨i, hi, he⟩
        exact ⟨i, by omega, he⟩
      · rcases List.mem_singleton.mp h with rfl
        exact ⟨k, by omega, rfl⟩

theorem keys_stylesUpTo {pfx suffix : String} {nm : Nat → String} {d : Nat → StyleDict} :
    ∀ {k : Nat} {p : String × NSVal}, p ∈ stylesUpTo pfx suffix nm d k →
      ∃ i, i < k ∧ p.1 = pfx ++ nm i ++ suffix := by
  intro k
  induction k with
  | zero => intro p hp; simp [stylesUpTo] at hp
  | succ k ih =>
      intro p hp
      rw [stylesUpTo] at hp
      rcases List.mem_append.mp hp with h | h
      · rcases ih h with ⟨i, hi, he⟩
        exact ⟨i, by omega, he⟩
      · rcases List.mem_singleton.mp h with rfl
        exact ⟨k, by omega, rfl⟩

theorem catUpTo_length (nm : Nat → String) (d : Nat → StyleDict) :
    ∀ k, (catUpTo nm d k).length = k := by
  intro k
  induction k with
  | zero => rfl
  | succ k ih => rw [catUpTo]; simp [ih]

theorem lookupPair_catUpTo {nm : Nat → String} {d : Nat → StyleDict} {n : Nat}
    (hinj : ∀ i i', i < n → i' < n → nm i = nm i' → i = i') :
    ∀ {M : Nat}, M ≤ n → ∀ {k : Nat}, k < M →
      lookupPair (catUpTo nm d M) (nm k) = some (d k) := by
  intro M
  induction M with
  | zero => intro _ k hk; omega
  | succ M ih =>
      intro hM k hk
      rw [catUpTo]
      by_cases hkM : k < M
      · exact lookupPair_append_left (ih (by omega) hkM) _
      · have hkM' : k = M := by omega
        subst hkM'
        have hnone : lookupPair (catUpTo nm d k) (nm k) = none := by
          apply lookupPair_none
          intro p hp
          rcases keys_catUpTo hp with ⟨i, hi, he⟩
          rw [he]
          intro hcon
          have := hinj i k (by omega) (by omega) hcon
          omega
        rw [lookupPair_append_right hnone]
        exact lookupPair_cons_eq _ _ _

theorem lookupPair_stylesUpTo {pfx suffix : String} {nm : Nat → String} {d : Nat → StyleDict}
    {n : Nat} (hinj : ∀ i i', i < n → i' < n → nm i = nm i' → i = i') :
    ∀ {M : Nat}, M ≤ n → ∀ {k : Nat}, k < M →
      lookupPair (stylesUpTo pfx suffix nm d M) (pfx ++ nm k ++ suffix) =
        some (NSVal.style (d k)) := by
  intro M
  induction M with
  | zero => intro _ k hk; omega
  | succ M ih =>
      intro hM k hk
      rw [stylesUpTo]
      by_cases hkM : k < M
      · exact lookupPair_append_left (ih (by omega) hkM) _
      · have hkM' : k = M := by omega
        subst hkM'
        have hnone : lookupPair (stylesUpTo pfx suffix nm d k) (pfx ++ nm k ++ suffix) = none := by
          apply lookupPair_none
          intro p hp
          rcases keys_stylesUpTo hp with ⟨i, hi, he⟩
          rw [he]
          intro hcon
          have := hinj i k (by omega) (by omega) (str_mid_inj hcon)
          omega
        rw [lookupPair_append_right hnone]
        exact lookupPair_cons_eq _ _ _

-- ## The expander loop: characterization of the generated namespace

theorem addStyleName_expState (pfx suffix : String) (nm : Nat → String) (d : Nat → StyleDict)
    {n j : Nat} (hinj : ∀ i i', i < n → i' < n → nm i = nm i' → i = i') (hj : j < n) :
    addStyleName (expState pfx suffix nm d j) (nm j) =
      ⟨namesUpTo nm (j + 1),
        (pfx ++ suffix, NSVal.cat (catUpTo nm d j)) :: stylesUpTo pfx suffix nm d j⟩ := by
  have hmem : nm j ∉ (expState pfx suffix nm d j).style_names := by
    intro hmem
    rcases mem_namesUpTo.mp hmem with ⟨i, hi, he⟩
    have := hinj i j (by omega) hj he
    omega
  unfold addStyleName
  rw [if_neg hmem]
  rfl

theorem register_expState (pfx suffix : String) (nm : Nat → String) (d : Nat → StyleDict)
    {n j : Nat} (hinj : ∀ i i', i < n → i' < n → nm i = nm i' → i = i')
    (hne : ∀ i, i < n → nm i ≠ "") (hj : j < n) :
    register
      ⟨namesUpTo nm (j + 1),
        (pfx ++ suffix, NSVal.cat (catUpTo nm d j)) :: stylesUpTo pfx suffix nm d j⟩
      (pfx ++ nm j ++ suffix) (pfx ++ suffix) (nm j) (d j) =
      expState pfx suffix nm d (j + 1) := by
  have hlnsn : pfx ++ suffix ≠ pfx ++ nm j ++ suffix :=
    fun h => str_mid_ne (hne j hj) h.symm
  have hkeys : ∀ p ∈ stylesUpTo pfx suffix nm d j, p.1 ≠ pfx ++ nm j ++ suffix := by
    intro p hp he
    rcases keys_stylesUpTo hp with ⟨i, hi, hpi⟩
    rw [hpi] at he
    have := hinj i j (by omega) hj (str_mid_inj he)
    omega
  have hcatkeys : ∀ p ∈ catUpTo nm d j, p.1 ≠ nm j := by
    intro p hp he
    rcases keys_catUpTo hp with ⟨i, hi, hpi⟩
    rw [hpi] at he
    have := hinj i j (by omega) hj he
    omega
  unfold register
  have h1 : setAttr
      ⟨namesUpTo nm (j + 1),
        (pfx ++ suffix, NSVal.cat (catUpTo nm d j)) :: stylesUpTo pfx suffix nm d j⟩
      (pfx ++ nm j ++ suffix) (NSVal.style (d j)) =
      ⟨namesUpTo nm (j + 1),
        (pfx ++ suffix, NSVal.cat (catUpTo nm d j)) :: stylesUpTo pfx suffix nm d (j + 1)⟩ := by
    simp only [setAttr]
    rw [setPair_cons_ne hlnsn, setPair_append hkeys]
    rfl
  rw [h1]
  have h2 : getAttr
      ⟨namesUpTo nm (j + 1),
        (pfx ++ suffix, NSVal.cat (catUpTo nm d j)) :: stylesUpTo pfx suffix nm d (j + 1)⟩
      (pfx ++ suffix) = some (NSVal.cat (catUpTo nm d j)) := by
    simp only [getAttr]
    exact lookupPair_cons_eq _ _ _
  simp only [h2]
  simp only [setAttr]
  rw [setPair_cons_eq, setPair_append hcatkeys]
  rfl

theorem expStep_state (pfx suffix : String) (nameAt : Nat → Option String)
    (recAt : Nat → Option StyleDict) (nm : Nat → String) (d : Nat → StyleDict) {n j : Nat}
    (hinj : ∀ i i', i < n → i' < n → nm i = nm i' → i = i')
    (hne : ∀ i, i < n → nm i ≠ "") (hj : j < n)
    (hname : nameAt j = some (nm j)) (hrec : recAt j = some (d j)) :
    expStep pfx suffix nameAt recAt j (expState pfx suffix nm d j) =
      (expState pfx suffix nm d (j + 1), true) := by
  simp only [expStep, hname, hrec]
  rw [addStyleName_expState pfx suffix nm d hinj hj,
    register_expState pfx suffix nm d hinj hne hj]

theorem goLoop_expState (pfx suffix : String) (nameAt : Nat → Option String)
    (recAt : Nat → Option StyleDict) (nm : Nat → String) (d : Nat → StyleDict) {n : Nat}
    (hinj : ∀ i i', i < n → i' < n → nm i = nm i' → i = i')
    (hne : ∀ i, i < n → nm i ≠ "")
    (hname : ∀ k, k < n → nameAt k = some (nm k))
    (hrec : ∀ k, k < n → recAt k = some (d k)) :
    ∀ (m j : Nat), j + m = n →
      goLoop (expStep pfx suffix nameAt recAt) j m (expState pfx suffix nm d j) =
        (expState pfx suffix nm d n, none) := by
  intro m
  induction m with
  | zero =>
      intro j hj
      have hjn : j = n := by omega
      subst hjn
      rfl
  | succ m ih =>
      intro j hj
      have hjn : j < n := by omega
      simp only [goLoop]
      rw [expStep_state pfx suffix nameAt recAt nm d hinj hne hjn (hname j hjn) (hrec j hjn)]
      exact ih (j + 1) (by omega)

theorem goLoop_expState_fail (pfx suffix : String) (nameAt : Nat → Option String)
    (recAt : Nat → Option StyleDict) (nm : Nat → String) (d : Nat → StyleDict) {n j : Nat}
    (hinj : ∀ i i', i < n → i' < n → nm i = nm i' → i = i')
    (hne : ∀ i, i < n → nm i ≠ "") (hj : j < n)
    (hname : ∀ k, k ≤ j → nameAt k = some (nm k))
    (hrec : ∀ k, k < j → recAt k = some (d k))
    (hrecj : recAt j = none) :
    ∀ (m k : Nat), k + m = n → k ≤ j →
      goLoop (expStep pfx suffix nameAt recAt) k m (expState pfx suffix nm d k) =
        (⟨namesUpTo nm (j + 1),
          (pfx ++ suffix, NSVal.cat (catUpTo nm d j)) :: stylesUpTo pfx suffix nm d j⟩,
         some j) := by
  intro m
  induction m with
  | zero => intro k h1 h2; omega
  | succ m ih =>
      intro k h1 h2
      by_cases hkj : k < j
      · simp only [goLoop]
        rw [expStep_state pfx suffix nameAt recAt nm d hinj hne (show k < n by omega)
          (hname k (by omega)) (hrec k hkj)]
        exact ih (k + 1) (by omega) (by omega)
      · have hkj' : k = j := by omega
        subst hkj'
        simp only [goLoop]
        have hstep : expStep pfx suffix nameAt recAt k (expState pfx suffix nm d k) =
            (⟨namesUpTo nm (k + 1),
              (pfx ++ suffix, NSVal.cat (catUpTo nm d k)) :: stylesUpTo pfx suffix nm d k⟩,
             false) := by
          simp only [expStep, hname k le_rfl, hrecj]
          rw [addStyleName_expState pfx suffix nm d hinj hj]
        rw [hstep]

-- ## The expander loop with a scalar name: every iteration overwrites

theorem expStep_const_start (pfx suffix cn : String) (nameAt : Nat → Option String)
    (recAt : Nat → Option StyleDict) (d : Nat → StyleDict)
    (hcn : cn ≠ "") (hname : nameAt 0 = some cn) (hrec : recAt 0 = some (d 0)) :
    expStep pfx suffix nameAt recAt 0 ⟨[], [(pfx ++ suffix, NSVal.cat [])]⟩ =
      (constState pfx suffix cn d 1, true) := by
  have hlnsn : pfx ++ suffix ≠ pfx ++ cn ++ suffix := fun h => str_mid_ne hcn h.symm
  simp only [expStep, hname, hrec]
  have hadd : addStyleName ⟨[], [(pfx ++ suffix, NSVal.cat [])]⟩ cn =
      ⟨[cn], [(pfx ++ suffix, NSVal.cat [])]⟩ := by
    unfold addStyleName
    rw [if_neg (by simp)]
    rfl
  rw [hadd]
  unfold register
  have h1 : setAttr ⟨[cn], [(pfx ++ suffix, NSVal.cat [])]⟩ (pfx ++ cn ++ suffix)
      (NSVal.style (d 0)) =
      ⟨[cn], [(pfx ++ suffix, NSVal.cat []),
        (pfx ++ cn ++ suffix, NSVal.style (d 0))]⟩ := by
    simp only [setAttr]
    rw [setPair_cons_ne hlnsn]
    rfl
  rw [h1]
  have h2 : getAttr ⟨[cn], [(pfx ++ suffix, NSVal.cat []),
      (pfx ++ cn ++ suffix, NSVal.style (d 0))]⟩ (pfx ++ suffix) =
      some (NSVal.cat []) := by
    simp only [getAttr]
    exact lookupPair_cons_eq _ _ _
  simp only [h2]
  simp only [setAttr]
  rw [setPair_cons_eq]
  rfl

theorem expStep_const_step (pfx suffix cn : String) (nameAt : Nat → Option String)
    (recAt : Nat → Option StyleDict) (d : Nat → StyleDict) {k : Nat}
    (hcn : cn ≠ "") (hname : nameAt k = some cn) (hrec : recAt k = some (d k)) :
    expStep pfx suffix nameAt recAt k (constState pfx suffix cn d k) =
      (constState pfx suffix cn d (k + 1), true) := by
  have hlnsn : pfx ++ suffix ≠ pfx ++ cn ++ suffix := fun h => str_mid_ne hcn h.symm
  simp only [expStep, hname, hrec]
  have hadd : addStyleName (constState pfx suffix cn d k) cn = constState pfx suffix cn d k := by
    unfold addStyleName
    rw [if_pos (by simp [constState])]
  rw [hadd]
  unfold register
  have h1 : setAttr (constState pfx suffix cn d k) (pfx ++ cn ++ suffix)
      (NSVal.style (d k)) =
      ⟨[cn], [(pfx ++ suffix, NSVal.cat [(cn, d (k - 1))]),
        (pfx ++ cn ++ suffix, NSVal.style (d k))]⟩ := by
    simp only [setAttr, constState]
    rw [setPair_cons_ne hlnsn, setPair_cons_eq]
  rw [h1]
  have h2 : getAttr ⟨[cn], [(pfx ++ suffix, NSVal.cat [(cn, d (k - 1))]),
      (pfx ++ cn ++ suffix, NSVal.style (d k))]⟩ (pfx ++ suffix) =
      some (NSVal.cat [(cn, d (k - 1))]) := by
    simp only [getAttr]
    exact lookupPair_cons_eq _ _ _
  simp only [h2]
  simp only [setAttr]
  rw [setPair_cons_eq, setPair_cons_eq]
  simp only [constState, Nat.add_sub_cancel]

theorem goLoop_constState (pfx suffix cn : String) (nameAt : Nat → Option String)
    (recAt : Nat → Option StyleDict) (d : Nat → StyleDict) {n : Nat}
    (hcn : cn ≠ "") (hname : ∀ k, nameAt k = some cn)
    (hrec : ∀ k, k < n → recAt k = some (d k)) :
    ∀ (m k : Nat), 1 ≤ k → k + m = n →
      goLoop (expStep pfx suffix nameAt recAt) k m (constState pfx suffix cn d k) =
        (constState pfx suffix cn d n, none) := by
  intro m
  induction m with
  | zero =>
      intro k h1 h2
      have : k = n := by omega
      subst this
      rfl
  | succ m ih =>
      intro k h1 h2
      simp only [goLoop]
      rw [expStep_const_step pfx suffix cn nameAt recAt d hcn (hname k)
        (hrec k (by omega))]
      exact ih (k + 1) (by omega) (by omega)

theorem goLoop_const_run (pfx suffix cn : String) (nameAt : Nat → Option String)
    (recAt : Nat → Option StyleDict) (d : Nat → StyleDict) {n : Nat} (hn : 1 ≤ n)
    (hcn : cn ≠ "") (hname : ∀ k, nameAt k = some cn)
    (hrec : ∀ k, k < n → recAt k = some (d k)) :
    goLoop (expStep pfx suffix nameAt recAt) 0 n ⟨[], [(pfx ++ suffix, NSVal.cat [])]⟩ =
      (constState pfx suffix cn d n, none) := by
  cases n with
  | zero => omega
  | succ m =>
      simp only [goLoop]
      rw [expStep_const_start pfx suffix cn nameAt recAt d hcn (hname 0) (hrec 0 (by omega))]
      exact goLoop_constState pfx suffix cn nameAt recAt d hcn hname hrec m 1 le_rfl (by omega)

-- ## Sequence-name helpers

theorem seq_name_at (nms : List String) {k : Nat} (hk : k < nms.length) :
    nms.get? k = some (nms.getD k "") := by
  rw [List.get?_eq_getElem?, List.getElem?_eq_getElem hk, List.getD_eq_getElem?_getD,
    List.getElem?_eq_getElem hk]
  rfl

theorem seq_name_inj (nms : List String) (hnd : nms.Nodup) {i j : Nat}
    (hi : i < nms.length) (hj : j < nms.length)
    (he : nms.getD i "" = nms.getD j "") : i = j := by
  rw [List.getD_eq_getElem?_getD, List.getElem?_eq_getElem hi,
    List.getD_eq_getElem?_getD, List.getElem?_eq_getElem hj] at he
  have hinj := List.nodup_iff_injective_get.mp hnd
  have h2 : nms.get ⟨i, hi⟩ = nms.get ⟨j, hj⟩ := by simpa using he
  simpa using congrArg Fin.val (hinj h2)

theorem seq_name_mem (nms : List String) {k : Nat} (hk : k < nms.length) :
    nms.getD k "" ∈ nms := by
  rw [List.getD_eq_getElem?_getD, List.getElem?_eq_getElem hk]
  exact List.getElem_mem hk

theorem namesUpTo_take (nms : List String) :
    ∀ {k : Nat}, k ≤ nms.length → namesUpTo (fun i => nms.getD i "") k = nms.take k := by
  intro k
  induction k with
  | zero => intro _; simp [namesUpTo]
  | succ k ih =>
      intro hk
      have hklt : k < nms.length := by omega
      rw [namesUpTo, ih (by omega), List.take_succ, List.getElem?_eq_getElem hklt]
      simp [List.getD_eq_getElem?_getD, List.getElem?_eq_getElem hklt]

theorem pargIndex_total {α : Type} {p : PArg α} {n k : Nat}
    (h : pargLen p = none ∨ pargLen p = some n) (hk : k < n) :
    ∃ a, pargIndex p k = some a := by
  cases p with
  | one a => exact ⟨a, rfl⟩
  | seq xs =>
      rcases h with h | h
      · simp [pargLen] at h
      · have hlen : xs.length = n := by simpa [pargLen] using h
        have hklen : k < xs.length := by omega
        exact ⟨xs.get ⟨k, hklen⟩, List.get?_eq_get hklen⟩

theorem markerAt_total {markers : List Marker} {n k : Nat}
    (h : markers.length = 1 ∨ markers.length = n) (hn : 1 ≤ n) (hk : k < n) :
    ∃ mk, markerAt markers k = some mk := by
  unfold markerAt
  by_cases hgt : markers.length > 1
  · rw [if_pos hgt]
    have hklen : k < markers.length := by
      rcases h with h | h
      · omega
      · omega
    exact ⟨markers.get ⟨k, hklen⟩, List.get?_eq_get hklen⟩
  · rw [if_neg hgt]
    have h0 : 0 < markers.length := by
      rcases h with h | h
      · omega
      · omega
    exact ⟨markers.get ⟨0, h0⟩, List.get?_eq_get h0⟩

theorem markerAt_single (mk : Marker) (k : Nat) : markerAt [mk] k = some mk := by
  simp [markerAt]

-- ## Bridging the generator functions onto the loop lemmas

theorem ensureCat_empty (ln : String) :
    ensureCat Namespace.empty ln = ⟨[], [(ln, NSVal.cat [])]⟩ := rfl

theorem goLoop_congr {s1 s2 : Nat → Namespace → Namespace × Bool}
    (h : ∀ k ns, s1 k ns = s2 k ns) :
    ∀ (m k : Nat) (ns : Namespace), goLoop s1 k m ns = goLoop s2 k m ns := by
  intro m
  induction m with
  | zero => intro k ns; rfl
  | succ m ih =>
      intro k ns
      simp only [goLoop, h k ns]
      rcases hs : s2 k ns with ⟨ns1, b⟩
      cases b
      · rfl
      · exact ih (k + 1) ns1

theorem fillStep_single (pfx suf : String) (names : NamesArg) (colors : PArg Color)
    (ecs ews fas : PArg Rat) (kwargs : StyleDict) (k : Nat) (ns : Namespace) :
    fillStep pfx names [some suf] colors ecs ews fas kwargs k ns =
      expStep pfx suf (getName names) (fillRecAt colors ecs ews fas kwargs) k ns := by
  unfold fillStep expStep
  cases hn : getName names k with
  | none => rfl
  | some nm =>
      rcases hc : pargIndex colors k with _ | c <;>
        rcases hec : pargIndex ecs k with _ | ec <;>
          rcases hew : pargIndex ews k with _ | ew <;>
            rcases hfa : pargIndex fas k with _ | fa <;>
              simp [fillGo, fillRecAt, hc, hec, hew, hfa]

theorem make_fillstyles_single (pfx suf : String) (names : NamesArg) (colors : PArg Color)
    (ecs ews fas : PArg Rat) (ns : Namespace) (kwargs : StyleDict) :
    make_fillstyles pfx names [some suf] colors ecs ews fas ns kwargs =
      goLoop (expStep pfx suf (getName names) (fillRecAt colors ecs ews fas kwargs)) 0
        (fillN names colors ecs ews fas) (ensureCat ns (pfx ++ suf)) := by
  unfold make_fillstyles
  exact goLoop_congr (fillStep_single pfx suf names colors ecs ews fas kwargs) _ _ _

-- ## Style-count positivity

theorem bump_ge (n : Nat) (o : Option Nat) : n ≤ bump n o := by
  cases o with
  | none => exact Nat.le_refl n
  | some m =>
      simp only [bump]
      split <;> omega

theorem foldl_bump_ge : ∀ (lens : List (Option Nat)) (acc : Nat),
    acc ≤ List.foldl bump acc lens := by
  intro lens
  induction lens with
  | nil => intro acc; exact Nat.le_refl acc
  | cons hd tl ih =>
      intro acc
      exact Nat.le_trans (bump_ge acc hd) (ih (bump acc hd))

theorem styleCount_pos (lens : List (Option Nat)) : 1 ≤ styleCount lens :=
  foldl_bump_ge lens 1

-- ## Run characterization: sequence names, every attribute index defined

theorem line_run_seq (pfx suffix : String) (nms : List String) (colors : PArg Color)
    (dashes : PArg Val) (lws : PArg Rat) (kwargs : StyleDict)
    (hnil : nms ≠ []) (hnd : nms.Nodup) (hne : ∀ x ∈ nms, x ≠ "")
    (hc : pargLen colors = none ∨ pargLen colors = some nms.length)
    (hd : pargLen dashes = none ∨ pargLen dashes = some nms.length)
    (hw : pargLen lws = none ∨ pargLen lws = some nms.length) :
    lineN (NamesArg.seq nms) colors dashes lws = nms.length ∧
    make_linestyles pfx (NamesArg.seq nms) suffix colors dashes lws Namespace.empty kwargs =
      (expState pfx suffix (fun i => nms.getD i "")
        (fun k => (lineRecAt colors dashes lws kwargs k).getD []) nms.length, none) := by
  have hlen : 1 ≤ nms.length := List.length_pos.mpr hnil
  have hcount : lineN (NamesArg.seq nms) colors dashes lws = nms.length := by
    show styleCount (some nms.length :: [pargLen colors, pargLen dashes, pargLen lws]) =
      nms.length
    apply styleCount_head hlen
    intro o ho m hm
    have : o = pargLen colors ∨ o = pargLen dashes ∨ o = pargLen lws := by simpa using ho
    rcases this with h | h | h <;> subst h
    · rcases hc with h | h <;> rw [h] at hm
      · cases hm
      · cases hm; omega
    · rcases hd with h | h <;> rw [h] at hm
      · cases hm
      · cases hm; omega
    · rcases hw with h | h <;> rw [h] at hm
      · cases hm
      · cases hm; omega
  refine ⟨hcount, ?_⟩
  unfold make_linestyles
  rw [hcount, ensureCat_empty]
  have hinj : ∀ i j, i < nms.length → j < nms.length →
      (fun i => nms.getD i "") i = (fun i => nms.getD i "") j → i = j :=
    fun i j hi hj he => seq_name_inj nms hnd hi hj he
  have hne' : ∀ i, i < nms.length → (fun i => nms.getD i "") i ≠ "" :=
    fun i hi => hne _ (seq_name_mem nms hi)
  have hname : ∀ k, k < nms.length →
      getName (NamesArg.seq nms) k = some ((fun i => nms.getD i "") k) :=
    fun k hk => seq_name_at nms hk
  have hrec : ∀ k, k < nms.length →
      lineRecAt colors dashes lws kwargs k =
        some ((fun k => (lineRecAt colors dashes lws kwargs k).getD []) k) := by
    intro k hk
    obtain ⟨c, hc'⟩ := pargIndex_total hc hk
    obtain ⟨ds, hd'⟩ := pargIndex_total hd hk
    obtain ⟨lw, hw'⟩ := pargIndex_total hw hk
    have he : lineRecAt colors dashes lws kwargs k = some (lineDict c ds lw kwargs) := by
      simp [lineRecAt, hc', hd', hw']
    simp [he]
  exact goLoop_expState pfx suffix (getName (NamesArg.seq nms))
    (lineRecAt colors dashes lws kwargs) (fun i => nms.getD i "")
    (fun k => (lineRecAt colors dashes lws kwargs k).getD [])
    hinj hne' hname hrec nms.length 0 (by omega)

theorem point_run_seq (pfx suffix : String) (nms : List String) (colors : PArg Color)
    (dashes : PArg Val) (lws : PArg Rat) (markers : List Marker)
    (msizes mecs mews : PArg Rat) (kwargs : StyleDict)
    (hnil : nms ≠ []) (hnd : nms.Nodup) (hne : ∀ x ∈ nms, x ≠ "")
    (hc : pargLen colors = none ∨ pargLen colors = some nms.length)
    (hd : pargLen dashes = none ∨ pargLen dashes = some nms.length)
    (hw : pargLen lws = none ∨ pargLen lws = some nms.length)
    (hmk : markers.length = 1 ∨ markers.length = nms.length)
    (hms : pargLen msizes = none ∨ pargLen msizes = some nms.length)
    (hmc : pargLen mecs = none ∨ pargLen mecs = some nms.length)
    (hmw : pargLen mews = none ∨ pargLen mews = some nms.length) :
    pointN (NamesArg.seq nms) colors dashes lws markers msizes mecs mews = nms.length ∧
    make_pointstyles pfx (NamesArg.seq nms) suffix colors dashes lws markers msizes mecs mews
        Namespace.empty kwargs =
      (expState pfx suffix (fun i => nms.getD i "")
        (fun k => (pointRecAt colors dashes lws markers msizes mecs mews kwargs k).getD [])
        nms.length, none) := by
  have hlen : 1 ≤ nms.length := List.length_pos.mpr hnil
  have hcount : pointN (NamesArg.seq nms) colors dashes lws markers msizes mecs mews =
      nms.length := by
    show styleCount (some nms.length :: [pargLen colors, pargLen dashes, pargLen lws,
      some markers.length, pargLen msizes, pargLen mecs, pargLen mews]) = nms.length
    apply styleCount_head hlen
    intro o ho m hm
    have : o = pargLen colors ∨ o = pargLen dashes ∨ o = pargLen lws ∨
        o = some markers.length ∨ o = pargLen msizes ∨ o = pargLen mecs ∨
        o = pargLen mews := by simpa using ho
    rcases this with h | h | h | h | h | h | h <;> subst h
    · rcases hc with h | h <;> rw [h] at hm
      · cases hm
      · cases hm; omega
    · rcases hd with h | h <;> rw [h] at hm
      · cases hm
      · cases hm; omega
    · rcases hw with h | h <;> rw [h] at hm
      · cases hm
      · cases hm; omega
    · cases hm
      rcases hmk with h | h <;> omega
    · rcases hms with h | h <;> rw [h] at hm
      · cases hm
      · cases hm; omega
    · rcases hmc with h | h <;> rw [h] at hm
      · cases hm
      · cases hm; omega
    · rcases hmw with h | h <;> rw [h] at hm
      · cases hm
      · cases hm; omega
  refine ⟨hcount, ?_⟩
  unfold make_pointstyles
  rw [hcount, ensureCat_empty]
  have hinj : ∀ i j, i < nms.length → j < nms.length →
      (fun i => nms.getD i "") i = (fun i => nms.getD i "") j → i = j :=
    fun i j hi hj he => seq_name_inj nms hnd hi hj he
  have hne' : ∀ i, i < nms.length → (fun i => nms.getD i "") i ≠ "" :=
    fun i hi => hne _ (seq_name_mem nms hi)
  have hname : ∀ k, k < nms.length →
      getName (NamesArg.seq nms) k = some ((fun i => nms.getD i "") k) :=
    fun k hk => seq_name_at nms hk
  have hrec : ∀ k, k < nms.length →
      pointRecAt colors dashes lws markers msizes mecs mews kwargs k =
        some ((fun k =>
          (pointRecAt colors dashes lws markers msizes mecs mews kwargs k).getD []) k) := by
    intro k hk
    obtain ⟨c, hc'⟩ := pargIndex_total hc hk
    obtain ⟨ds, hd'⟩ := pargIndex_total hd hk
    obtain ⟨lw, hw'⟩ := pargIndex_total hw hk
    obtain ⟨mk, hmk'⟩ := markerAt_total hmk hlen hk
    obtain ⟨ms, hms'⟩ := pargIndex_total hms hk
    obtain ⟨mc, hmc'⟩ := pargIndex_total hmc hk
    obtain ⟨mw, hmw'⟩ := pargIndex_total hmw hk
    have he : pointRecAt colors dashes lws markers msizes mecs mews kwargs k =
        some (pointDict c ds lw mk ms mc mw kwargs) := by
      simp [pointRecAt, hc', hd', hw', hmk', hms', hmc', hmw']
    simp [he]
  exact goLoop_expState pfx suffix (getName (NamesArg.seq nms))
    (pointRecAt colors dashes lws markers msizes mecs mews kwargs) (fun i => nms.getD i "")
    (fun k => (pointRecAt colors dashes lws markers msizes mecs mews kwargs k).getD [])
    hinj hne' hname hrec nms.length 0 (by omega)

theorem fill_run_seq_single (pfx suf : String) (nms : List String) (colors : PArg Color)
    (ecs ews fas : PArg Rat) (kwargs : StyleDict)
    (hnil : nms ≠ []) (hnd : nms.Nodup) (hne : ∀ x ∈ nms, x ≠ "")
    (hc : pargLen colors = none ∨ pargLen colors = some nms.length)
    (hec : pargLen ecs = none ∨ pargLen ecs = some nms.length)
    (hew : pargLen ews = none ∨ pargLen ews = some nms.length)
    (hfa : pargLen fas = none ∨ pargLen fas = some nms.length) :
    fillN (NamesArg.seq nms) colors ecs ews fas = nms.length ∧
    make_fillstyles pfx (NamesArg.seq nms) [some suf] colors ecs ews fas
        Namespace.empty kwargs =
      (expState pfx suf (fun i => nms.getD i "")
        (fun k => (fillRecAt colors ecs ews fas kwargs k).getD []) nms.length, none) := by
  have hlen : 1 ≤ nms.length := List.length_pos.mpr hnil
  have hcount : fillN (NamesArg.seq nms) colors ecs ews fas = nms.length := by
    show styleCount (some nms.length :: [pargLen colors, pargLen ecs, pargLen ews,
      pargLen fas]) = nms.length
    apply styleCount_head hlen
    intro o ho m hm
    have : o = pargLen colors ∨ o = pargLen ecs ∨ o = pargLen ews ∨ o = pargLen fas := by
      simpa using ho
    rcases this with h | h | h | h <;> subst h
    · rcases hc with h | h <;> rw [h] at hm
      · cases hm
      · cases hm; omega
    · rcases hec with h | h <;> rw [h] at hm
      · cases hm
      · cases hm; omega
    · rcases hew with h | h <;> rw [h] at hm
      · cases hm
      · cases hm; omega
    · rcases hfa with h | h <;> rw [h] at hm
      · cases hm
      · cases hm; omega
  refine ⟨hcount, ?_⟩
  rw [make_fillstyles_single, hcount]
  have hstart : ensureCat Namespace.empty (pfx ++ suf) =
      ⟨[], [(pfx ++ suf, NSVal.cat [])]⟩ := rfl
  rw [hstart]
  have hinj : ∀ i j, i < nms.length → j < nms.length →
      (fun i => nms.getD i "") i = (fun i => nms.getD i "") j → i = j :=
    fun i j hi hj he => seq_name_inj nms hnd hi hj he
  have hne' : ∀ i, i < nms.length → (fun i => nms.getD i "") i ≠ "" :=
    fun i hi => hne _ (seq_name_mem nms hi)
  have hname : ∀ k, k < nms.length →
      getName (NamesArg.seq nms) k = some ((fun i => nms.getD i "") k) :=
    fun k hk => seq_name_at nms hk
  have hrec : ∀ k, k < nms.length →
      fillRecAt colors ecs ews fas kwargs k =
        some ((fun k => (fillRecAt colors ecs ews fas kwargs k).getD []) k) := by
    intro k hk
    obtain ⟨c, hc'⟩ := pargIndex_total hc hk
    obtain ⟨ec, hec'⟩ := pargIndex_total hec hk
    obtain ⟨ew, hew'⟩ := pargIndex_total hew hk
    obtain ⟨fa, hfa'⟩ := pargIndex_total hfa hk
    have he : fillRecAt colors ecs ews fas kwargs k =
        some (fillDict c ec ew fa kwargs 0) := by
      simp [fillRecAt, hc', hec', hew', hfa']
    simp [he]
  exact goLoop_expState pfx suf (getName (NamesArg.seq nms))
    (fillRecAt colors ecs ews fas kwargs) (fun i => nms.getD i "")
    (fun k => (fillRecAt colors ecs ews fas kwargs k).getD [])
    hinj hne' hname hrec nms.length 0 (by omega)

-- ## Run characterization: scalar name without a placeholder

theorem line_run_const (pfx suffix s : String) (colors : PArg Color) (dashes : PArg Val)
    (lws : PArg Rat) (kwargs : StyleDict)
    (hs : strContains s '%' = false) (hsne : s ≠ "")
    (hrec : ∀ k, k < lineN (NamesArg.str s) colors dashes lws →
      ∃ d, lineRecAt colors dashes lws kwargs k = some d) :
    make_linestyles pfx (NamesArg.str s) suffix colors dashes lws Namespace.empty kwargs =
      (constState pfx suffix s (fun k => (lineRecAt colors dashes lws kwargs k).getD [])
        (lineN (NamesArg.str s) colors dashes lws), none) := by
  unfold make_linestyles
  rw [ensureCat_empty]
  apply goLoop_const_run pfx suffix s _ _ _ (styleCount_pos _) hsne
  · intro k
    simp [getName, hs]
  · intro k hk
    obtain ⟨d, hd⟩ := hrec k hk
    rw [hd]
    rfl

theorem point_run_const (pfx suffix s : String) (colors : PArg Color) (dashes : PArg Val)
    (lws : PArg Rat) (markers : List Marker) (msizes mecs mews : PArg Rat)
    (kwargs : StyleDict)
    (hs : strContains s '%' = false) (hsne : s ≠ "")
    (hrec : ∀ k, k < pointN (NamesArg.str s) colors dashes lws markers msizes mecs mews →
      ∃ d, pointRecAt colors dashes lws markers msizes mecs mews kwargs k = some d) :
    make_pointstyles pfx (NamesArg.str s) suffix colors dashes lws markers msizes mecs mews
        Namespace.empty kwargs =
      (constState pfx suffix s
        (fun k => (pointRecAt colors dashes lws markers msizes mecs mews kwargs k).getD [])
        (pointN (NamesArg.str s) colors dashes lws markers msizes mecs mews), none) := by
  unfold make_pointstyles
  rw [ensureCat_empty]
  apply goLoop_const_run pfx suffix s _ _ _ (styleCount_pos _) hsne
  · intro k
    simp [getName, hs]
  · intro k hk
    obtain ⟨d, hd⟩ := hrec k hk
    rw [hd]
    rfl

theorem fill_run_const_single (pfx suf s : String) (colors : PArg Color)
    (ecs ews fas : PArg Rat) (kwargs : StyleDict)
    (hs : strContains s '%' = false) (hsne : s ≠ "")
    (hrec : ∀ k, k < fillN (NamesArg.str s) colors ecs ews fas →
      ∃ d, fillRecAt colors ecs ews fas kwargs k = some d) :
    make_fillstyles pfx (NamesArg.str s) [some suf] colors ecs ews fas
        Namespace.empty kwargs =
      (constState pfx suf s (fun k => (fillRecAt colors ecs ews fas kwargs k).getD [])
        (fillN (NamesArg.str s) colors ecs ews fas), none) := by
  rw [make_fillstyles_single]
  have hstart : ensureCat Namespace.empty (pfx ++ suf) =
      ⟨[], [(pfx ++ suf, NSVal.cat [])]⟩ := rfl
  rw [hstart]
  apply goLoop_const_run pfx suf s _ _ _ (styleCount_pos _) hsne
  · intro k
    simp [getName, hs]
  · intro k hk
    obtain ⟨d, hd⟩ := hrec k hk
    rw [hd]
    rfl

-- ## Failure run: an attribute sequence shorter than the style count

theorem pargIndex_one {α : Type} (a : α) (k : Nat) : pargIndex (PArg.one a) k = some a := rfl

theorem line_run_fail (pfx suffix : String) (nms : List String) (cs : List Color)
    (ds : Val) (lw : Rat) (kwargs : StyleDict)
    (hnd : nms.Nodup) (hne : ∀ x ∈ nms, x ≠ "") (hlt : cs.length < nms.length) :
    lineN (NamesArg.seq nms) (PArg.seq cs) (PArg.one ds) (PArg.one lw) = nms.length ∧
    make_linestyles pfx (NamesArg.seq nms) suffix (PArg.seq cs) (PArg.one ds) (PArg.one lw)
        Namespace.empty kwargs =
      (⟨namesUpTo (fun i => nms.getD i "") (cs.length + 1),
        (pfx ++ suffix, NSVal.cat (catUpTo (fun i => nms.getD i "")
          (fun k => (lineRecAt (PArg.seq cs) (PArg.one ds) (PArg.one lw) kwargs k).getD [])
          cs.length)) ::
        stylesUpTo pfx suffix (fun i => nms.getD i "")
          (fun k => (lineRecAt (PArg.seq cs) (PArg.one ds) (PArg.one lw) kwargs k).getD [])
          cs.length⟩,
       some cs.length) := by
  have hlen : 1 ≤ nms.length := by omega
  have hcount : lineN (NamesArg.seq nms) (PArg.seq cs) (PArg.one ds) (PArg.one lw) =
      nms.length := by
    show styleCount (some nms.length :: [some cs.length, none, none]) = nms.length
    apply styleCount_head hlen
    intro o ho m hm
    have : o = some cs.length ∨ o = none ∨ o = none := by simpa using ho
    rcases this with h | h | h <;> subst h
    · cases hm; omega
    · cases hm
    · cases hm
  refine ⟨hcount, ?_⟩
  unfold make_linestyles
  rw [hcount, ensureCat_empty]
  have hinj : ∀ i j, i < nms.length → j < nms.length →
      (fun i => nms.getD i "") i = (fun i => nms.getD i "") j → i = j :=
    fun i j hi hj he => seq_name_inj nms hnd hi hj he
  have hne' : ∀ i, i < nms.length → (fun i => nms.getD i "") i ≠ "" :=
    fun i hi => hne _ (seq_name_mem nms hi)
  have hname : ∀ k, k ≤ cs.length →
      getName (NamesArg.seq nms) k = some ((fun i => nms.getD i "") k) :=
    fun k hk => seq_name_at nms (by omega)
  have hrec : ∀ k, k < cs.length →
      lineRecAt (PArg.seq cs) (PArg.one ds) (PArg.one lw) kwargs k =
        some ((fun k =>
          (lineRecAt (PArg.seq cs) (PArg.one ds) (PArg.one lw) kwargs k).getD []) k) := by
    intro k hk
    obtain ⟨c, hc'⟩ :=
      pargIndex_total (p := PArg.seq cs) (Or.inr rfl) (show k < cs.length from hk)
    have he : lineRecAt (PArg.seq cs) (PArg.one ds) (PArg.one lw) kwargs k =
        some (lineDict c ds lw kwargs) := by
      simp [lineRecAt, hc', pargIndex_one]
    simp [he]
  have hrecj : lineRecAt (PArg.seq cs) (PArg.one ds) (PArg.one lw) kwargs cs.length =
      none := by
    have hnone : pargIndex (PArg.seq cs) cs.length = none := by
      simp [pargIndex, List.get?_eq_none]
    simp [lineRecAt, hnone]
  exact goLoop_expState_fail pfx suffix (getName (NamesArg.seq nms))
    (lineRecAt (PArg.seq cs) (PArg.one ds) (PArg.one lw) kwargs) (fun i => nms.getD i "")
    (fun k => (lineRecAt (PArg.seq cs) (PArg.one ds) (PArg.one lw) kwargs k).getD [])
    hinj hne' hlt hname hrec hrecj nms.length 0 (by omega) (by omega)

-- ## Registry invariant machinery

theorem empty_regInv : RegInv Namespace.empty := by
  constructor
  · exact List.nodup_nil
  · intro key m hm
    cases hm

theorem addStyleName_regInv {ns : Namespace} (h : RegInv ns) (name : String) :
    RegInv (addStyleName ns name) := by
  obtain ⟨h1, h2⟩ := h
  refine ⟨addStyleName_nodup h1 name, ?_⟩
  intro key m hm p hp
  rw [getAttr, addStyleName_attrs] at hm
  exact addStyleName_mono (h2 key m hm p hp) name

theorem register_cat_spec {ns : Namespace} {sn ln name : String} {d : StyleDict}
    {key : String} {m : List (String × StyleDict)}
    (hm : getAttr (register ns sn ln name d) key = some (NSVal.cat m)) :
    ∀ p ∈ m, (∃ m0, getAttr ns key = some (NSVal.cat m0) ∧ p ∈ m0) ∨ p.1 = name := by
  intro p hp
  unfold register at hm
  dsimp only at hm
  split at hm
  · rename_i m0 heq
    rw [getAttr_setAttr] at heq
    by_cases hsnln : sn = ln
    · rw [if_pos hsnln] at heq
      cases heq
    · rw [if_neg hsnln] at heq
      rw [getAttr_setAttr] at hm
      by_cases hlnkey : ln = key
      · rw [if_pos hlnkey] at hm
        injection hm with hm'
        injection hm' with hm''
        subst hm''
        rcases mem_setPair hp with hmem | hmem
        · subst hlnkey
          exact Or.inl ⟨m0, heq, hmem⟩
        · subst hmem
          exact Or.inr rfl
      · rw [if_neg hlnkey, getAttr_setAttr] at hm
        by_cases hsnkey : sn = key
        · rw [if_pos hsnkey] at hm
          cases hm
        · rw [if_neg hsnkey] at hm
          exact Or.inl ⟨m, hm, hp⟩
  · rw [getAttr_setAttr] at hm
    by_cases hsnkey : sn = key
    · rw [if_pos hsnkey] at hm
      cases hm
    · rw [if_neg hsnkey] at hm
      exact Or.inl ⟨m, hm, hp⟩

theorem register_regInv {ns : Namespace} {sn ln name : String} {d : StyleDict}
    (h : RegInv ns) (hmem : name ∈ ns.style_names) :
    RegInv (register ns sn ln name d) := by
  obtain ⟨h1, h2⟩ := h
  constructor
  · rw [register_style_names]
    exact h1
  · intro key m hm p hp
    rw [register_style_names]
    rcases register_cat_spec hm p hp with ⟨m0, hm0, hp0⟩ | hpn
    · exact h2 key m0 hm0 p hp0
    · rw [hpn]
      exact hmem

theorem ensureCat_regInv {ns : Namespace} (h : RegInv ns) (ln : String) :
    RegInv (ensureCat ns ln) := by
  obtain ⟨h1, h2⟩ := h
  unfold ensureCat
  split
  · exact ⟨h1, h2⟩
  · constructor
    · exact h1
    · intro key m hm p hp
      rw [getAttr_setAttr] at hm
      by_cases hlnkey : ln = key
      · rw [if_pos hlnkey] at hm
        injection hm with hm'
        injection hm' with hm''
        subst hm''
        cases hp
      · rw [if_neg hlnkey] at hm
        exact h2 key m hm p hp

theorem ensureCats_regInv (pfx : String) :
    ∀ (sufs : List (Option String)) (ns : Namespace), RegInv ns →
      RegInv (ensureCats ns pfx sufs) := by
  intro sufs
  induction sufs with
  | nil => intro ns h; exact h
  | cons hd tl ih =>
      intro ns h
      cases hd with
      | none => exact ih ns h
      | some suf => exact ih _ (ensureCat_regInv h _)

theorem expStep_regInv (pfx suffix : String) (nameAt : Nat → Option String)
    (recAt : Nat → Option StyleDict) (k : Nat) {ns : Namespace} (h : RegInv ns) :
    RegInv (expStep pfx suffix nameAt recAt k ns).1 := by
  unfold expStep
  cases nameAt k with
  | none => exact h
  | some name =>
      cases recAt k with
      | none => exact addStyleName_regInv h name
      | some d =>
          exact register_regInv (addStyleName_regInv h name) (addStyleName_mem ns name)

theorem fillGo_style_names (pfx name : String) (colors : PArg Color) (ecs ews fas : PArg Rat)
    (kwargs : StyleDict) (k : Nat) :
    ∀ (sufs : List (Option String)) (j : Nat) (ns : Namespace),
      (fillGo pfx name colors ecs ews fas kwargs k sufs j ns).1.style_names =
        ns.style_names := by
  intro sufs
  induction sufs with
  | nil => intro j ns; rfl
  | cons hd tl ih =>
      intro j ns
      cases hd with
      | none => exact ih (j + 1) ns
      | some suf =>
          unfold fillGo
          rcases pargIndex colors k with _ | c
          · rfl
          · rcases pargIndex ecs k with _ | ec
            · rfl
            · rcases pargIndex ews k with _ | ew
              · rfl
              · rcases pargIndex fas k with _ | fa
                · rfl
                · rw [ih (j + 1) _]
                  exact register_style_names _ _ _ _ _

theorem fillGo_regInv (pfx name : String) (colors : PArg Color) (ecs ews fas : PArg Rat)
    (kwargs : StyleDict) (k : Nat) :
    ∀ (sufs : List (Option String)) (j : Nat) {ns : Namespace}, RegInv ns →
      name ∈ ns.style_names →
      RegInv (fillGo pfx name colors ecs ews fas kwargs k sufs j ns).1 := by
  intro sufs
  induction sufs with
  | nil => intro j ns h _; exact h
  | cons hd tl ih =>
      intro j ns h hmem
      cases hd with
      | none => exact ih (j + 1) h hmem
      | some suf =>
          unfold fillGo
          rcases pargIndex colors k with _ | c
          · exact h
          · rcases pargIndex ecs k with _ | ec
            · exact h
            · rcases pargIndex ews k with _ | ew
              · exact h
              · rcases pargIndex fas k with _ | fa
                · exact h
                · refine ih (j + 1) (register_regInv h hmem) ?_
                  rw [register_style_names]
                  exact hmem

theorem fillStep_regInv (pfx : String) (names : NamesArg) (suffixes : List (Option String))
    (colors : PArg Color) (ecs ews fas : PArg Rat) (kwargs : StyleDict) (k : Nat)
    {ns : Namespace} (h : RegInv ns) :
    RegInv (fillStep pfx names suffixes colors ecs ews fas kwargs k ns).1 := by
  unfold fillStep
  cases getName names k with
  | none => exact h
  | some name =>
      exact fillGo_regInv pfx name colors ecs ews fas kwargs k suffixes 0
        (addStyleName_regInv h name) (addStyleName_mem ns name)

theorem goLoop_regInv {step : Nat → Namespace → Namespace × Bool}
    (hstep : ∀ (k : Nat) (ns : Namespace), RegInv ns → RegInv (step k ns).1) :
    ∀ (m k : Nat) {ns : Namespace}, RegInv ns → RegInv (goLoop step k m ns).1 := by
  intro m
  induction m with
  | zero => intro k ns h; exact h
  | succ m ih =>
      intro k ns h
      simp only [goLoop]
      rcases hs : step k ns with ⟨ns1, b⟩
      have h1 : RegInv ns1 := by
        have := hstep k ns h
        rw [hs] at this
        exact this
      cases b
      · exact h1
      · exact ih (k + 1) h1

theorem runCall_regInv (c : GenCall) {ns : Namespace} (h : RegInv ns) :
    RegInv (runCall c ns).1 := by
  cases c with
  | line pfx names suffix colors dashes lws kwargs =>
      unfold runCall make_linestyles
      exact goLoop_regInv (fun k ns h => expStep_regInv _ _ _ _ k h) _ 0
        (ensureCat_regInv h _)
  | point pfx names suffix colors dashes lws markers msizes mecs mews kwargs =>
      unfold runCall make_pointstyles
      exact goLoop_regInv (fun k ns h => expStep_regInv _ _ _ _ k h) _ 0
        (ensureCat_regInv h _)
  | fill pfx names suffixes colors ecs ews fas kwargs =>
      unfold runCall make_fillstyles
      exact goLoop_regInv (fun k ns h => fillStep_regInv _ _ _ _ _ _ _ _ k h) _ 0
        (ensureCats_regInv _ _ _ h)

theorem runCalls_regInv : ∀ (calls : List GenCall) {ns : Namespace}, RegInv ns →
    RegInv (runCalls calls ns).1 := by
  intro calls
  induction calls with
  | nil => intro ns h; exact h
  | cons c rest ih =>
      intro ns h
      unfold runCalls
      rcases hc : runCall c ns with ⟨ns1, e⟩
      have h1 : RegInv ns1 := by
        have := runCall_regInv c h
        rw [hc] at this
        exact this
      cases e
      · exact ih h1
      · exact h1

-- ## The name list only grows, and processed names are present

theorem expStep_names_isPrefix (pfx suffix : String) (nameAt : Nat → Option String)
    (recAt : Nat → Option StyleDict) (k : Nat) (ns : Namespace) :
    ns.style_names <+: (expStep pfx suffix nameAt recAt k ns).1.style_names := by
  unfold expStep
  cases nameAt k with
  | none => exact List.prefix_refl _
  | some name =>
      cases recAt k with
      | none => exact addStyleName_isPrefix ns name
      | some d =>
          rw [register_style_names]
          exact addStyleName_isPrefix ns name

theorem fillStep_names_isPrefix (pfx : String) (names : NamesArg)
    (suffixes : List (Option String)) (colors : PArg Color) (ecs ews fas : PArg Rat)
    (kwargs : StyleDict) (k : Nat) (ns : Namespace) :
    ns.style_names <+:
      (fillStep pfx names suffixes colors ecs ews fas kwargs k ns).1.style_names := by
  unfold fillStep
  cases getName names k with
  | none => exact List.prefix_refl _
  | some name =>
      rw [fillGo_style_names]
      exact addStyleName_isPrefix ns name

theorem goLoop_names_isPrefix {step : Nat → Namespace → Namespace × Bool}
    (hstep : ∀ (k : Nat) (ns : Namespace), ns.style_names <+: (step k ns).1.style_names) :
    ∀ (m k : Nat) (ns : Namespace),
      ns.style_names <+: (goLoop step k m ns).1.style_names := by
  intro m
  induction m with
  | zero => intro k ns; exact List.prefix_refl _
  | succ m ih =>
      intro k ns
      simp only [goLoop]
      rcases hs : step k ns with ⟨ns1, b⟩
      have h1 : ns.style_names <+: ns1.style_names := by
        have := hstep k ns
        rw [hs] at this
        exact this
      cases b
      · exact h1
      · exact h1.trans (ih (k + 1) ns1)

theorem runCall_names_isPrefix (c : GenCall) (ns : Namespace) :
    ns.style_names <+: (runCall c ns).1.style_names := by
  cases c with
  | line pfx names suffix colors dashes lws kwargs =>
      unfold runCall make_linestyles
      have h0 : ns.style_names = (ensureCat ns (pfx ++ suffix)).style_names :=
        (ensureCat_style_names ns _).symm
      rw [h0]
      exact goLoop_names_isPrefix (expStep_names_isPrefix _ _ _ _) _ 0 _
  | point pfx names suffix colors dashes lws markers msizes mecs mews kwargs =>
      unfold runCall make_pointstyles
      have h0 : ns.style_names = (ensureCat ns (pfx ++ suffix)).style_names :=
        (ensureCat_style_names ns _).symm
      rw [h0]
      exact goLoop_names_isPrefix (expStep_names_isPrefix _ _ _ _) _ 0 _
  | fill pfx names suffixes colors ecs ews fas kwargs =>
      unfold runCall make_fillstyles
      have h0 : ∀ (sufs : List (Option String)) (ns : Namespace),
          (ensureCats ns pfx sufs).style_names = ns.style_names := by
        intro sufs
        induction sufs with
        | nil => intro ns; rfl
        | cons hd tl ih =>
            intro ns
            cases hd with
            | none => exact ih ns
            | some suf => rw [ensureCats, ih, ensureCat_style_names]
      have h1 := goLoop_names_isPrefix
        (fillStep_names_isPrefix pfx names suffixes colors ecs ews fas kwargs)
        (fillN names colors ecs ews fas) 0 (ensureCats ns pfx suffixes)
      rw [h0 suffixes ns] at h1
      exact h1

theorem runCalls_names_isPrefix : ∀ (calls : List GenCall) (ns : Namespace),
    ns.style_names <+: (runCalls calls ns).1.style_names := by
  intro calls
  induction calls with
  | nil => intro ns; exact List.prefix_refl _
  | cons c rest ih =>
      intro ns
      unfold runCalls
      rcases hc : runCall c ns with ⟨ns1, e⟩
      have h1 : ns.style_names <+: ns1.style_names := by
        have := runCall_names_isPrefix c ns
        rw [hc] at this
        exact this
      cases e
      · exact h1.trans (ih ns1)
      · exact h1

theorem expStep_adds_name (pfx suffix : String) (nameAt : Nat → Option String)
    (recAt : Nat → Option StyleDict) (k : Nat) (ns : Namespace) {nm : String}
    (hn : nameAt k = some nm) :
    nm ∈ (expStep pfx suffix nameAt recAt k ns).1.style_names := by
  simp only [expStep, hn]
  rcases hr : recAt k with _ | d <;> simp only [hr]
  · exact addStyleName_mem ns nm
  · rw [register_style_names]
    exact addStyleName_mem ns nm

theorem fillStep_adds_name (pfx : String) (names : NamesArg)
    (suffixes : List (Option String)) (colors : PArg Color) (ecs ews fas : PArg Rat)
    (kwargs : StyleDict) (k : Nat) (ns : Namespace) {nm : String}
    (hn : getName names k = some nm) :
    nm ∈ (fillStep pfx names suffixes colors ecs ews fas kwargs k ns).1.style_names := by
  unfold fillStep
  rw [hn]
  rw [fillGo_style_names]
  exact addStyleName_mem ns nm

theorem goLoop_names_present {step : Nat → Namespace → Namespace × Bool}
    {nameAt : Nat → Option String}
    (hpref : ∀ (k : Nat) (ns : Namespace), ns.style_names <+: (step k ns).1.style_names)
    (hadd : ∀ (k : Nat) (ns : Namespace) (nm : String), nameAt k = some nm →
      nm ∈ (step k ns).1.style_names) :
    ∀ (m k0 : Nat) (ns ns' : Namespace), goLoop step k0 m ns = (ns', none) →
      ∀ (k : Nat) (nm : String), k0 ≤ k → k < k0 + m → nameAt k = some nm →
        nm ∈ ns'.style_names := by
  intro m
  induction m with
  | zero => intro k0 ns ns' _ k nm h1 h2; omega
  | succ m ih =>
      intro k0 ns ns' hrun k nm h1 h2 hn
      rw [goLoop] at hrun
      rcases hs : step k0 ns with ⟨ns1, b⟩
      rw [hs] at hrun
      cases b with
      | false =>
          have hco : (ns1, some k0) = (ns', none) := hrun
          simp at hco
      | true =>
          have hrun' : goLoop step (k0 + 1) m ns1 = (ns', none) := hrun
          by_cases hk : k = k0
          · subst hk
            have hmem : nm ∈ ns1.style_names := by
              have := hadd k ns nm hn
              rw [hs] at this
              exact this
            have hpref2 : ns1.style_names <+: ns'.style_names := by
              have := goLoop_names_isPrefix hpref m (k + 1) ns1
              rw [hrun'] at this
              exact this
            exact hpref2.subset hmem
          · exact ih (k0 + 1) ns1 ns' hrun' k nm (by omega) (by omega) hn

theorem runCall_names_present (c : GenCall) (ns ns' : Namespace)
    (h : runCall c ns = (ns', none)) :
    ∀ (k : Nat) (nm : String), k < callCount c → getName (callNames c) k = some nm →
      nm ∈ ns'.style_names := by
  intro k nm hk hn
  cases c with
  | line pfx names suffix colors dashes lws kwargs =>
      unfold runCall make_linestyles at h
      exact goLoop_names_present (expStep_names_isPrefix pfx suffix _ _)
        (fun k ns nm hn => expStep_adds_name pfx suffix _ _ k ns hn)
        _ 0 _ ns' h k nm (by omega) (by simpa using hk) hn
  | point pfx names suffix colors dashes lws markers msizes mecs mews kwargs =>
      unfold runCall make_pointstyles at h
      exact goLoop_names_present (expStep_names_isPrefix pfx suffix _ _)
        (fun k ns nm hn => expStep_adds_name pfx suffix _ _ k ns hn)
        _ 0 _ ns' h k nm (by omega) (by simpa using hk) hn
  | fill pfx names suffixes colors ecs ews fas kwargs =>
      unfold runCall make_fillstyles at h
      exact goLoop_names_present
        (fillStep_names_isPrefix pfx names suffixes colors ecs ews fas kwargs)
        (fun k ns nm hn =>
          fillStep_adds_name pfx names suffixes colors ecs ews fas kwargs k ns hn)
        _ 0 _ ns' h k nm (by omega) (by simpa using hk) hn

theorem runCalls_names_present :
    ∀ (calls : List GenCall) (ns ns' : Namespace), runCalls calls ns = (ns', none) →
      ∀ c ∈ calls, ∀ (k : Nat) (nm : String), k < callCount c →
        getName (callNames c) k = some nm → nm ∈ ns'.style_names := by
  intro calls
  induction calls with
  | nil => intro ns ns' _ c hc; cases hc
  | cons c0 rest ih =>
      intro ns ns' hrun c hc k nm hk hn
      unfold runCalls at hrun
      rcases hc0 : runCall c0 ns with ⟨ns1, e⟩
      rw [hc0] at hrun
      cases e with
      | some j =>
          have hco : (ns1, some j) = (ns', none) := hrun
          simp at hco
      | none =>
          have hrun' : runCalls rest ns1 = (ns', none) := hrun
          rcases List.mem_cons.mp hc with hceq | hcrest
          · subst hceq
            have hmem : nm ∈ ns1.style_names :=
              runCall_names_present c ns ns1 hc0 k nm hk hn
            have hpref : ns1.style_names <+: ns'.style_names := by
              have := runCalls_names_isPrefix rest ns1
              rw [hrun'] at this
              exact this
            exact hpref.subset hmem
          · exact ih ns1 ns' hrun' c hcrest k nm hk hn

-- ## Reading the final state

theorem expState_read (pfx suffix : String) (nm : Nat → String) (d : Nat → StyleDict)
    (n : Nat) (hinj : ∀ i j, i < n → j < n → nm i = nm j → i = j)
    (hne : ∀ i, i < n → nm i ≠ "") :
    getAttr (expState pfx suffix nm d n) (pfx ++ suffix) =
      some (NSVal.cat (catUpTo nm d n)) ∧
    ∀ k, k < n → lookupPair (catUpTo nm d n) (nm k) = some (d k) ∧
      getAttr (expState pfx suffix nm d n) (pfx ++ nm k ++ suffix) =
        some (NSVal.style (d k)) := by
  constructor
  · exact lookupPair_cons_eq _ _ _
  · intro k hk
    refine ⟨lookupPair_catUpTo hinj le_rfl hk, ?_⟩
    show lookupPair ((pfx ++ suffix, NSVal.cat (catUpTo nm d n)) ::
      stylesUpTo pfx suffix nm d n) (pfx ++ nm k ++ suffix) = some (NSVal.style (d k))
    rw [lookupPair_cons_ne (Ne.symm (str_mid_ne (hne k hk)))]
    exact lookupPair_stylesUpTo hinj le_rfl hk

/-- C5: calling make_linestyles with prefix 'ls', name 'Male', empty suffix, color
'blue', dash '-', width 2 into a fresh namespace produces exactly one record
(color 'blue', linestyle '-', linewidth 2), retrievable both as the attribute
'lsMale' and as entry 'Male' of the category mapping 'ls'; 'Male' appears exactly
once in style_names even after a point style is subsequently generated for 'Male'
in the same namespace. -/
theorem C5_end_to_end :
    (make_linestyles "ls" (NamesArg.str "Male") "" (PArg.one (Color.named "blue"))
        (PArg.one (Val.s "-")) (PArg.one 2) Namespace.empty []).2 = none ∧
    getAttr (make_linestyles "ls" (NamesArg.str "Male") "" (PArg.one (Color.named "blue"))
        (PArg.one (Val.s "-")) (PArg.one 2) Namespace.empty []).1 "lsMale" =
      some (NSVal.style [("color", Val.col (Color.named "blue")), ("linestyle", Val.s "-"),
        ("linewidth", Val.num 2)]) ∧
    getAttr (make_linestyles "ls" (NamesArg.str "Male") "" (PArg.one (Color.named "blue"))
        (PArg.one (Val.s "-")) (PArg.one 2) Namespace.empty []).1 "ls" =
      some (NSVal.cat [("Male", [("color", Val.col (Color.named "blue")),
        ("linestyle", Val.s "-"), ("linewidth", Val.num 2)])]) ∧
    (make_linestyles "ls" (NamesArg.str "Male") "" (PArg.one (Color.named "blue"))
        (PArg.one (Val.s "-")) (PArg.one 2) Namespace.empty []).1.style_names = ["Male"] ∧
    (make_pointstyles "ps" (NamesArg.str "Male") "" (PArg.one (Color.named "red"))
        (PArg.one (Val.s "none")) (PArg.one 0) [(Val.s "o", 1)] (PArg.one 5) (PArg.one 0)
        (PArg.one 1)
        (make_linestyles "ls" (NamesArg.str "Male") "" (PArg.one (Color.named "blue"))
          (PArg.one (Val.s "-")) (PArg.one 2) Namespace.empty []).1
        []).1.style_names = ["Male"] :=
  ⟨rfl, rfl, rfl, rfl, rfl⟩

/-- C7: invoking plot_styles twice with identical arguments, each time into a fresh
empty namespace, yields structurally identical registries: the same style_names
sequence, the same attribute table (category keys and records), and the same
completion status. -/
theorem C7_composer_deterministic (names : NamesArg) (colors : PArg Color)
    (dashes : PArg Val) (markers : List Marker)
    (lwthick lwthin mlarge msmall mec mew fillalpha : Rat) (ns1 ns2 : Namespace)
    (h1 : ns1 = Namespace.empty) (h2 : ns2 = Namespace.empty) :
    (plot_styles names colors dashes markers lwthick lwthin mlarge msmall mec mew fillalpha
        ns1).1.style_names =
      (plot_styles names colors dashes markers lwthick lwthin mlarge msmall mec mew fillalpha
        ns2).1.style_names ∧
    (plot_styles names colors dashes markers lwthick lwthin mlarge msmall mec mew fillalpha
        ns1).1.attrs =
      (plot_styles names colors dashes markers lwthick lwthin mlarge msmall mec mew fillalpha
        ns2).1.attrs ∧
    (plot_styles names colors dashes markers lwthick lwthin mlarge msmall mec mew fillalpha
        ns1).2 =
      (plot_styles names colors dashes markers lwthick lwthin mlarge msmall mec mew fillalpha
        ns2).2 := by
  subst h1
  subst h2
  exact ⟨rfl, rfl, rfl⟩

theorem C7_composer_deterministic_witness :
    (plot_styles (NamesArg.seq ["Male", "Female"])
        (PArg.seq [Color.named "blue", Color.named "pink"])
        (PArg.seq [Val.s "-", Val.s "-"]) [(Val.s "o", 1), (Val.s "o", 1)]
        2 1 (15/2) (11/2) (1/2) 1 (2/5) Namespace.empty).1.style_names =
      (plot_styles (NamesArg.seq ["Male", "Female"])
        (PArg.seq [Color.named "blue", Color.named "pink"])
        (PArg.seq [Val.s "-", Val.s "-"]) [(Val.s "o", 1), (Val.s "o", 1)]
        2 1 (15/2) (11/2) (1/2) 1 (2/5) Namespace.empty).1.style_names ∧
    (plot_styles (NamesArg.seq ["Male", "Female"])
        (PArg.seq [Color.named "blue", Color.named "pink"])
        (PArg.seq [Val.s "-", Val.s "-"]) [(Val.s "o", 1), (Val.s "o", 1)]
        2 1 (15/2) (11/2) (1/2) 1 (2/5) Namespace.empty).1.attrs =
      (plot_styles (NamesArg.seq ["Male", "Female"])
        (PArg.seq [Color.named "blue", Color.named "pink"])
        (PArg.seq [Val.s "-", Val.s "-"]) [(Val.s "o", 1), (Val.s "o", 1)]
        2 1 (15/2) (11/2) (1/2) 1 (2/5) Namespace.empty).1.attrs ∧
    (plot_styles (NamesArg.seq ["Male", "Female"])
        (PArg.seq [Color.named "blue", Color.named "pink"])
        (PArg.seq [Val.s "-", Val.s "-"]) [(Val.s "o", 1), (Val.s "o", 1)]
        2 1 (15/2) (11/2) (1/2) 1 (2/5) Namespace.empty).2 =
      (plot_styles (NamesArg.seq ["Male", "Female"])
        (PArg.seq [Color.named "blue", Color.named "pink"])
        (PArg.seq [Val.s "-", Val.s "-"]) [(Val.s "o", 1), (Val.s "o", 1)]
        2 1 (15/2) (11/2) (1/2) 1 (2/5) Namespace.empty).2 :=
  C7_composer_deterministic (NamesArg.seq ["Male", "Female"])
    (PArg.seq [Color.named "blue", Color.named "pink"])
    (PArg.seq [Val.s "-", Val.s "-"]) [(Val.s "o", 1), (Val.s "o", 1)]
    2 1 (15/2) (11/2) (1/2) 1 (2/5) Namespace.empty Namespace.empty rfl rfl

/-- C10: the color cycle handed to the rendering configuration consists of exactly
the palette values of the requested names that are present in the palette, in
request order; an absent name is silently skipped (no error), so the cycle can be
shorter than the requested list. -/
theorem C10_color_cycler_filters :
    (∀ (palette : List (String × Color)) (c : String) (cs : List String) (v : Color),
      lookupPair palette c = some v →
        color_cycler palette (c :: cs) = v :: color_cycler palette cs) ∧
    (∀ (palette : List (String × Color)) (c : String) (cs : List String),
      lookupPair palette c = none →
        color_cycler palette (c :: cs) = color_cycler palette cs) ∧
    (∀ palette : List (String × Color), color_cycler palette [] = []) ∧
    (∀ (palette : List (String × Color)) (cs : List String),
      (color_cycler palette cs).length ≤ cs.length) ∧
    (∃ (palette : List (String × Color)) (cs : List String),
      (color_cycler palette cs).length < cs.length) := by
  refine ⟨?_, ?_, ?_, ?_, ?_⟩
  · intro palette c cs v h
    simp [color_cycler, List.filterMap_cons, h]
  · intro palette c cs h
    simp [color_cycler, List.filterMap_cons, h]
  · intro palette
    rfl
  · intro palette cs
    exact List.length_filterMap_le _ _
  · exact ⟨[], ["blue"], by simp [color_cycler, lookupPair]⟩

theorem C10_color_cycler_filters_witness :
    color_cycler [("blue", Color.named "#0000FF")] ["blue", "red"] =
      Color.named "#0000FF" :: color_cycler [("blue", Color.named "#0000FF")] ["red"] ∧
    color_cycler [("blue", Color.named "#0000FF")] ["red"] =
      color_cycler [("blue", Color.named "#0000FF")] [] :=
  ⟨C10_color_cycler_filters.1 [("blue", Color.named "#0000FF")] "blue" ["red"]
      (Color.named "#0000FF") (by decide),
    C10_color_cycler_filters.2.1 [("blue", Color.named "#0000FF")] "red" [] (by decide)⟩

/-- C6: make_linepointstyles generates up to three categories from one parameter
set: when the first prefix is non-empty it delegates to make_linestyles; when the
second is non-empty it delegates to make_pointstyles with dashes forced to 'none'
and line width forced to 0; when the third is non-empty it delegates to
make_pointstyles with the caller's dashes and line widths; a falsy (empty) prefix
disables exactly that sub-call and no other, and disabling all three leaves the
namespace untouched. -/
theorem C6_linepoint_toggle (names : NamesArg) (suffix : String) (colors : PArg Color)
    (dashes : PArg Val) (lws : PArg Rat) (markers : List Marker)
    (msizes mecs mews : PArg Rat) (ns : Namespace) (kwargs : StyleDict) :
    (make_linepointstyles ("", "", "") names suffix colors dashes lws markers msizes mecs
      mews ns kwargs = (ns, none)) ∧
    (∀ p1 : String, p1 ≠ "" →
      make_linepointstyles (p1, "", "") names suffix colors dashes lws markers msizes mecs
        mews ns kwargs = make_linestyles p1 names suffix colors dashes lws ns kwargs) ∧
    (∀ p2 : String, p2 ≠ "" →
      make_linepointstyles ("", p2, "") names suffix colors dashes lws markers msizes mecs
        mews ns kwargs = make_pointstyles p2 names suffix colors (PArg.one (Val.s "none"))
        (PArg.one 0) markers msizes mecs mews ns kwargs) ∧
    (∀ p3 : String, p3 ≠ "" →
      make_linepointstyles ("", "", p3) names suffix colors dashes lws markers msizes mecs
        mews ns kwargs = make_pointstyles p3 names suffix colors dashes lws markers msizes
        mecs mews ns kwargs) ∧
    (∀ p1 p2 p3 : String, p1 ≠ "" → p2 ≠ "" → p3 ≠ "" →
      make_linepointstyles (p1, p2, p3) names suffix colors dashes lws markers msizes mecs
        mews ns kwargs =
        (match make_linestyles p1 names suffix colors dashes lws ns kwargs with
         | (ns1, some k) => (ns1, some k)
         | (ns1, none) =>
           match make_pointstyles p2 names suffix colors (PArg.one (Val.s "none"))
               (PArg.one 0) markers msizes mecs mews ns1 kwargs with
           | (ns2, some k) => (ns2, some k)
           | (ns2, none) => make_pointstyles p3 names suffix colors dashes lws markers
               msizes mecs mews ns2 kwargs)) := by
  refine ⟨?_, ?_, ?_, ?_, ?_⟩
  · simp [make_linepointstyles]
  · intro p1 h1
    simp only [make_linepointstyles, ne_eq, h1, not_false_eq_true, if_true,
      not_true_eq_false, if_false, ite_self]
    rcases hr : make_linestyles p1 names suffix colors dashes lws ns kwargs with ⟨nsa, e⟩
    cases e <;> simp
  · intro p2 h2
    simp only [make_linepointstyles, ne_eq, h2, not_false_eq_true, if_true,
      not_true_eq_false, if_false]
    rcases hr : make_pointstyles p2 names suffix colors (PArg.one (Val.s "none"))
      (PArg.one 0) markers msizes mecs mews ns kwargs with ⟨nsa, e⟩
    cases e <;> simp
  · intro p3 h3
    simp only [make_linepointstyles, ne_eq, h3, not_false_eq_true, if_true,
      not_true_eq_false, if_false]
  · intro p1 p2 p3 h1 h2 h3
    simp only [make_linepointstyles, ne_eq, h1, h2, h3, not_false_eq_true, if_true]

theorem C6_linepoint_toggle_witness :
    make_linepointstyles ("", "", "") (NamesArg.str "X") "" (PArg.one (Color.named "r"))
      (PArg.one (Val.s "-")) (PArg.one 1) [(Val.s "o", 1)] (PArg.one 5) (PArg.one 0)
      (PArg.one 1) Namespace.empty [] = (Namespace.empty, none) ∧
    make_linepointstyles ("ls", "", "") (NamesArg.str "X") "" (PArg.one (Color.named "r"))
      (PArg.one (Val.s "-")) (PArg.one 1) [(Val.s "o", 1)] (PArg.one 5) (PArg.one 0)
      (PArg.one 1) Namespace.empty [] =
      make_linestyles "ls" (NamesArg.str "X") "" (PArg.one (Color.named "r"))
        (PArg.one (Val.s "-")) (PArg.one 1) Namespace.empty [] ∧
    make_linepointstyles ("", "ps", "") (NamesArg.str "X") "" (PArg.one (Color.named "r"))
      (PArg.one (Val.s "-")) (PArg.one 1) [(Val.s "o", 1)] (PArg.one 5) (PArg.one 0)
      (PArg.one 1) Namespace.empty [] =
      make_pointstyles "ps" (NamesArg.str "X") "" (PArg.one (Color.named "r"))
        (PArg.one (Val.s "none")) (PArg.one 0) [(Val.s "o", 1)] (PArg.one 5) (PArg.one 0)
        (PArg.one 1) Namespace.empty [] ∧
    make_linepointstyles ("", "", "lps") (NamesArg.str "X") "" (PArg.one (Color.named "r"))
      (PArg.one (Val.s "-")) (PArg.one 1) [(Val.s "o", 1)] (PArg.one 5) (PArg.one 0)
      (PArg.one 1) Namespace.empty [] =
      make_pointstyles "lps" (NamesArg.str "X") "" (PArg.one (Color.named "r"))
        (PArg.one (Val.s "-")) (PArg.one 1) [(Val.s "o", 1)] (PArg.one 5) (PArg.one 0)
        (PArg.one 1) Namespace.empty [] :=
  ⟨(C6_linepoint_toggle (NamesArg.str "X") "" (PArg.one (Color.named "r"))
      (PArg.one (Val.s "-")) (PArg.one 1) [(Val.s "o", 1)] (PArg.one 5) (PArg.one 0)
      (PArg.one 1) Namespace.empty []).1,
    (C6_linepoint_toggle (NamesArg.str "X") "" (PArg.one (Color.named "r"))
      (PArg.one (Val.s "-")) (PArg.one 1) [(Val.s "o", 1)] (PArg.one 5) (PArg.one 0)
      (PArg.one 1) Namespace.empty []).2.1 "ls" (by decide),
    (C6_linepoint_toggle (NamesArg.str "X") "" (PArg.one (Color.named "r"))
      (PArg.one (Val.s "-")) (PArg.one 1) [(Val.s "o", 1)] (PArg.one 5) (PArg.one 0)
      (PArg.one 1) Namespace.empty []).2.2.1 "ps" (by decide),
    (C6_linepoint_toggle (NamesArg.str "X") "" (PArg.one (Color.named "r"))
      (PArg.one (Val.s "-")) (PArg.one 1) [(Val.s "o", 1)] (PArg.one 5) (PArg.one 0)
      (PArg.one 1) Namespace.empty []).2.2.2.1 "lps" (by decide)⟩

/-- C9: if make_linestyles is called with a plain string name containing no '%'
placeholder while the colors argument is a sequence of length m>1, the computed
style count is m and the call succeeds, but every record is registered under the
same single name: style_names contains the name exactly once, and both the named
attribute and the category entry hold the record built from the last index m-1,
each earlier record having been silently overwritten. -/
theorem C9_scalar_name_collision (pfx suffix s : String) (cs : List Color) (ds : Val)
    (lw : Rat) (kwargs : StyleDict)
    (hs : strContains s '%' = false) (hsne : s ≠ "") (hm : 1 < cs.length) :
    lineN (NamesArg.str s) (PArg.seq cs) (PArg.one ds) (PArg.one lw) = cs.length ∧
    (make_linestyles pfx (NamesArg.str s) suffix (PArg.seq cs) (PArg.one ds) (PArg.one lw)
        Namespace.empty kwargs).2 = none ∧
    (make_linestyles pfx (NamesArg.str s) suffix (PArg.seq cs) (PArg.one ds) (PArg.one lw)
        Namespace.empty kwargs).1.style_names = [s] ∧
    ∀ c : Color, cs.get? (cs.length - 1) = some c →
      getAttr (make_linestyles pfx (NamesArg.str s) suffix (PArg.seq cs) (PArg.one ds)
          (PArg.one lw) Namespace.empty kwargs).1 (pfx ++ s ++ suffix) =
        some (NSVal.style (lineDict c ds lw kwargs)) ∧
      getAttr (make_linestyles pfx (NamesArg.str s) suffix (PArg.seq cs) (PArg.one ds)
          (PArg.one lw) Namespace.empty kwargs).1 (pfx ++ suffix) =
        some (NSVal.cat [(s, lineDict c ds lw kwargs)]) := by
  have hcount : lineN (NamesArg.str s) (PArg.seq cs) (PArg.one ds) (PArg.one lw) =
      cs.length := by
    show styleCount [none, some cs.length, none, none] = cs.length
    simp only [styleCount, List.foldl, bump]
    rw [if_pos hm]
  have hrec : ∀ k, k < lineN (NamesArg.str s) (PArg.seq cs) (PArg.one ds) (PArg.one lw) →
      ∃ d, lineRecAt (PArg.seq cs) (PArg.one ds) (PArg.one lw) kwargs k = some d := by
    intro k hk
    rw [hcount] at hk
    obtain ⟨c, hc⟩ := pargIndex_total (p := PArg.seq cs) (Or.inr rfl) hk
    exact ⟨lineDict c ds lw kwargs, by simp [lineRecAt, hc, pargIndex_one]⟩
  have hrun := line_run_const pfx suffix s (PArg.seq cs) (PArg.one ds) (PArg.one lw) kwargs
    hs hsne hrec
  rw [hcount] at hrun
  refine ⟨hcount, by rw [hrun], by rw [hrun]; rfl, ?_⟩
  intro c hc
  have hp : pargIndex (PArg.seq cs) (cs.length - 1) = some c := hc
  have hd : (lineRecAt (PArg.seq cs) (PArg.one ds) (PArg.one lw) kwargs
      (cs.length - 1)).getD [] = lineDict c ds lw kwargs := by
    simp [lineRecAt, hp, pargIndex_one]
  constructor
  · rw [hrun]
    simp only [constState, getAttr]
    rw [lookupPair_cons_ne (Ne.symm (str_mid_ne hsne)), lookupPair_cons_eq, hd]
  · rw [hrun]
    simp only [constState, getAttr]
    rw [lookupPair_cons_eq, hd]

theorem C9_scalar_name_collision_witness :
    lineN (NamesArg.str "X") (PArg.seq [Color.named "r", Color.named "g"]) (PArg.one (Val.s "-"))
      (PArg.one 1) = 2 ∧
    (make_linestyles "ls" (NamesArg.str "X") "" (PArg.seq [Color.named "r", Color.named "g"])
        (PArg.one (Val.s "-")) (PArg.one 1) Namespace.empty []).2 = none ∧
    (make_linestyles "ls" (NamesArg.str "X") "" (PArg.seq [Color.named "r", Color.named "g"])
        (PArg.one (Val.s "-")) (PArg.one 1) Namespace.empty []).1.style_names = ["X"] ∧
    ∀ c : Color, [Color.named "r", Color.named "g"].get? 1 = some c →
      getAttr (make_linestyles "ls" (NamesArg.str "X") ""
          (PArg.seq [Color.named "r", Color.named "g"]) (PArg.one (Val.s "-")) (PArg.one 1)
          Namespace.empty []).1 ("ls" ++ "X" ++ "") =
        some (NSVal.style (lineDict c (Val.s "-") 1 [])) ∧
      getAttr (make_linestyles "ls" (NamesArg.str "X") ""
          (PArg.seq [Color.named "r", Color.named "g"]) (PArg.one (Val.s "-")) (PArg.one 1)
          Namespace.empty []).1 ("ls" ++ "") =
        some (NSVal.cat [("X", lineDict c (Val.s "-") 1 [])]) :=
  C9_scalar_name_collision "ls" "" "X" [Color.named "r", Color.named "g"] (Val.s "-") 1 []
    (by decide) (by decide) (by decide)

/-- C8: when an attribute sequence (here colors) is shorter than the computed style
count, the failure surfaces at the first out-of-range loop index — the returned
error index equals the length of the short sequence, not zero and not a
validated-upfront rejection — and the registry stays partially populated: the
names up to and including the failing iteration remain in style_names, the
category mapping holds exactly the records of the indices before the failure, and
no entry written before the failure is removed. -/
theorem C8_no_rollback (pfx suffix : String) (nms : List String) (cs : List Color)
    (ds : Val) (lw : Rat) (kwargs : StyleDict)
    (hnd : nms.Nodup) (hne : ∀ x ∈ nms, x ≠ "") (hlt : cs.length < nms.length) :
    lineN (NamesArg.seq nms) (PArg.seq cs) (PArg.one ds) (PArg.one lw) = nms.length ∧
    (make_linestyles pfx (NamesArg.seq nms) suffix (PArg.seq cs) (PArg.one ds) (PArg.one lw)
        Namespace.empty kwargs).2 = some cs.length ∧
    (make_linestyles pfx (NamesArg.seq nms) suffix (PArg.seq cs) (PArg.one ds) (PArg.one lw)
        Namespace.empty kwargs).1.style_names = nms.take (cs.length + 1) ∧
    ∃ m, getAttr (make_linestyles pfx (NamesArg.seq nms) suffix (PArg.seq cs) (PArg.one ds)
          (PArg.one lw) Namespace.empty kwargs).1 (pfx ++ suffix) = some (NSVal.cat m) ∧
      m.length = cs.length ∧
      ∀ k, k < cs.length → ∀ c, cs.get? k = some c →
        lookupPair m (nms.getD k "") = some (lineDict c ds lw kwargs) ∧
        getAttr (make_linestyles pfx (NamesArg.seq nms) suffix (PArg.seq cs) (PArg.one ds)
            (PArg.one lw) Namespace.empty kwargs).1 (pfx ++ nms.getD k "" ++ suffix) =
          some (NSVal.style (lineDict c ds lw kwargs)) := by
  obtain ⟨hcount, hrun⟩ := line_run_fail pfx suffix nms cs ds lw kwargs hnd hne hlt
  have hinj : ∀ i j, i < nms.length → j < nms.length →
      (fun i => nms.getD i "") i = (fun i => nms.getD i "") j → i = j :=
    fun i j hi hj he => seq_name_inj nms hnd hi hj he
  refine ⟨hcount, by rw [hrun], ?_, ?_⟩
  · rw [hrun]
    exact namesUpTo_take nms (by omega)
  · refine ⟨catUpTo (fun i => nms.getD i "")
      (fun k => (lineRecAt (PArg.seq cs) (PArg.one ds) (PArg.one lw) kwargs k).getD [])
      cs.length, ?_, catUpTo_length _ _ _, ?_⟩
    · rw [hrun]
      simp only [getAttr]
      exact lookupPair_cons_eq _ _ _
    · intro k hk c hc
      have hp : pargIndex (PArg.seq cs) k = some c := hc
      have hd : (lineRecAt (PArg.seq cs) (PArg.one ds) (PArg.one lw) kwargs k).getD [] =
          lineDict c ds lw kwargs := by
        simp [lineRecAt, hp, pargIndex_one]
      constructor
      · simpa [hd] using
          lookupPair_catUpTo (n := nms.length)
            (d := fun k => (lineRecAt (PArg.seq cs) (PArg.one ds) (PArg.one lw) kwargs k).getD [])
            hinj (Nat.le_of_lt hlt) hk
      · rw [hrun]
        simp only [getAttr]
        have hk' : k < nms.length := by omega
        have hnek : nms.getD k "" ≠ "" := hne _ (seq_name_mem nms hk')
        rw [lookupPair_cons_ne
          (Ne.symm (@str_mid_ne pfx suffix (nms.getD k "") hnek))]
        simpa [hd] using
          lookupPair_stylesUpTo (n := nms.length)
            (d := fun k => (lineRecAt (PArg.seq cs) (PArg.one ds) (PArg.one lw) kwargs k).getD [])
            hinj (Nat.le_of_lt hlt) hk

theorem C8_no_rollback_witness :
    lineN (NamesArg.seq ["A", "B", "C"]) (PArg.seq [Color.named "r"]) (PArg.one (Val.s "-"))
      (PArg.one 1) = 3 ∧
    (make_linestyles "ls" (NamesArg.seq ["A", "B", "C"]) "" (PArg.seq [Color.named "r"])
        (PArg.one (Val.s "-")) (PArg.one 1) Namespace.empty []).2 = some 1 ∧
    (make_linestyles "ls" (NamesArg.seq ["A", "B", "C"]) "" (PArg.seq [Color.named "r"])
        (PArg.one (Val.s "-")) (PArg.one 1) Namespace.empty []).1.style_names =
      ["A", "B", "C"].take 2 ∧
    ∃ m, getAttr (make_linestyles "ls" (NamesArg.seq ["A", "B", "C"]) ""
          (PArg.seq [Color.named "r"]) (PArg.one (Val.s "-")) (PArg.one 1) Namespace.empty
          []).1 ("ls" ++ "") = some (NSVal.cat m) ∧
      m.length = 1 ∧
      ∀ k, k < 1 → ∀ c, [Color.named "r"].get? k = some c →
        lookupPair m (["A", "B", "C"].getD k "") = some (lineDict c (Val.s "-") 1 []) ∧
        getAttr (make_linestyles "ls" (NamesArg.seq ["A", "B", "C"]) ""
            (PArg.seq [Color.named "r"]) (PArg.one (Val.s "-")) (PArg.one 1) Namespace.empty
            []).1 ("ls" ++ ["A", "B", "C"].getD k "" ++ "") =
          some (NSVal.style (lineDict c (Val.s "-") 1 [])) :=
  C8_no_rollback "ls" "" ["A", "B", "C"] [Color.named "r"] (Val.s "-") 1 []
    (by decide) (by decide) (by decide)

/-- C2: in make_pointstyles, marker attributes are pairs (marker symbol, edge-width
scale factor); when only one marker pair is supplied — a singleton markers list —
that single pair applies to all n generated records regardless of n: for every
index k the generated record has the marker field equal to the pair's symbol and
the markersize field equal to the pair's scale factor times the k-th marker
size. -/
theorem C2_single_marker_broadcast (pfx suffix : String) (nms : List String)
    (colors : PArg Color) (dashes : PArg Val) (lws : PArg Rat) (mk : Marker)
    (msizes mecs mews : PArg Rat) (kwargs : StyleDict)
    (hnil : nms ≠ []) (hnd : nms.Nodup) (hne : ∀ x ∈ nms, x ≠ "")
    (hc : pargLen colors = none ∨ pargLen colors = some nms.length)
    (hd : pargLen dashes = none ∨ pargLen dashes = some nms.length)
    (hw : pargLen lws = none ∨ pargLen lws = some nms.length)
    (hms : pargLen msizes = none ∨ pargLen msizes = some nms.length)
    (hmc : pargLen mecs = none ∨ pargLen mecs = some nms.length)
    (hmw : pargLen mews = none ∨ pargLen mews = some nms.length) :
    pointN (NamesArg.seq nms) colors dashes lws [mk] msizes mecs mews = nms.length ∧
    (make_pointstyles pfx (NamesArg.seq nms) suffix colors dashes lws [mk] msizes mecs mews
        Namespace.empty kwargs).2 = none ∧
    ∀ k, k < nms.length → ∀ ms, pargIndex msizes k = some ms →
      ∃ dct, getAttr (make_pointstyles pfx (NamesArg.seq nms) suffix colors dashes lws [mk]
            msizes mecs mews Namespace.empty kwargs).1
          (pfx ++ nms.getD k "" ++ suffix) = some (NSVal.style dct) ∧
        lookupPair dct "marker" = some mk.1 ∧
        lookupPair dct "markersize" = some (Val.num (mk.2 * ms)) := by
  obtain ⟨hcount, hrun⟩ := point_run_seq pfx suffix nms colors dashes lws [mk] msizes mecs
    mews kwargs hnil hnd hne hc hd hw (Or.inl rfl) hms hmc hmw
  have hinj : ∀ i j, i < nms.length → j < nms.length →
      (fun i => nms.getD i "") i = (fun i => nms.getD i "") j → i = j :=
    fun i j hi hj he => seq_name_inj nms hnd hi hj he
  have hne' : ∀ i, i < nms.length → (fun i => nms.getD i "") i ≠ "" :=
    fun i hi => hne _ (seq_name_mem nms hi)
  refine ⟨hcount, by rw [hrun], ?_⟩
  intro k hk ms hms'
  obtain ⟨c, hc'⟩ := pargIndex_total hc hk
  obtain ⟨ds, hd'⟩ := pargIndex_total hd hk
  obtain ⟨lw, hw'⟩ := pargIndex_total hw hk
  obtain ⟨mc, hmc'⟩ := pargIndex_total hmc hk
  obtain ⟨mw, hmw'⟩ := pargIndex_total hmw hk
  have hdk : (pointRecAt colors dashes lws [mk] msizes mecs mews kwargs k).getD [] =
      pointDict c ds lw mk ms mc mw kwargs := by
    simp [pointRecAt, hc', hd', hw', markerAt_single, hms', hmc', hmw']
  refine ⟨pointDict c ds lw mk ms mc mw kwargs, ?_, ?_, ?_⟩
  · rw [hrun]
    have hread := ((expState_read pfx suffix (fun i => nms.getD i "")
      (fun k => (pointRecAt colors dashes lws [mk] msizes mecs mews kwargs k).getD [])
      nms.length hinj hne').2 k hk).2
    simpa [hdk] using hread
  · simp only [pointDict]
    rw [lookupPair_cons_ne (by decide), lookupPair_cons_ne (by decide),
      lookupPair_cons_ne (by decide), lookupPair_cons_eq]
  · simp only [pointDict]
    rw [lookupPair_cons_ne (by decide), lookupPair_cons_ne (by decide),
      lookupPair_cons_ne (by decide), lookupPair_cons_ne (by decide), lookupPair_cons_eq]

theorem C2_single_marker_broadcast_witness :
    pointN (NamesArg.seq ["A", "B"]) (PArg.seq [Color.named "r", Color.named "g"])
      (PArg.one (Val.s "none")) (PArg.one 0) [(Val.s "o", 1)] (PArg.seq [8, 6]) (PArg.one 0)
      (PArg.one 1) = 2 ∧
    (make_pointstyles "ps" (NamesArg.seq ["A", "B"])
      "" (PArg.seq [Color.named "r", Color.named "g"]) (PArg.one (Val.s "none")) (PArg.one 0)
      [(Val.s "o", 1)] (PArg.seq [8, 6]) (PArg.one 0) (PArg.one 1)
      Namespace.empty []).2 = none ∧
    ∀ k, k < (["A", "B"] : List String).length → ∀ ms,
      pargIndex (PArg.seq ([8, 6] : List Rat)) k = some ms →
      ∃ dct, getAttr (make_pointstyles "ps" (NamesArg.seq ["A", "B"]) ""
            (PArg.seq [Color.named "r", Color.named "g"]) (PArg.one (Val.s "none"))
            (PArg.one 0) [(Val.s "o", 1)] (PArg.seq [8, 6]) (PArg.one 0) (PArg.one 1)
            Namespace.empty []).1
          ("ps" ++ (["A", "B"] : List String).getD k "" ++ "") = some (NSVal.style dct) ∧
        lookupPair dct "marker" = some (Val.s "o", (1 : Rat)).1 ∧
        lookupPair dct "markersize" = some (Val.num ((Val.s "o", (1 : Rat)).2 * ms)) :=
  C2_single_marker_broadcast "ps" "" ["A", "B"] (PArg.seq [Color.named "r", Color.named "g"])
    (PArg.one (Val.s "none")) (PArg.one 0) (Val.s "o", 1) (PArg.seq [8, 6]) (PArg.one 0)
    (PArg.one 1) [] (by decide) (by decide) (by decide) (Or.inr rfl) (Or.inl rfl)
    (Or.inl rfl) (Or.inr rfl) (Or.inl rfl) (Or.inl rfl)

/-- C4: after any sequence of generator calls into one namespace starting from a
fresh registry, the ordered style_names list holds no duplicates; every name
present in any category mapping is also present in style_names; a single
generator call only appends to style_names, so the first occurrence of a name
fixes its position and duplicates are never re-appended; and when the whole
sequence completes, every name processed by any call is present in
style_names. -/
theorem C4_registry_invariant (calls : List GenCall) (ns : Namespace) (err : Option Nat)
    (h : runCalls calls Namespace.empty = (ns, err)) :
    ns.style_names.Nodup ∧
    (∀ key m, getAttr ns key = some (NSVal.cat m) → ∀ p ∈ m, p.1 ∈ ns.style_names) ∧
    (∀ (c : GenCall) (ns0 : Namespace), ns0.style_names <+: (runCall c ns0).1.style_names) ∧
    (err = none → ∀ c ∈ calls, ∀ k, k < callCount c → ∀ nm,
      getName (callNames c) k = some nm → nm ∈ ns.style_names) := by
  have hInv := runCalls_regInv calls empty_regInv
  rw [h] at hInv
  refine ⟨hInv.1, hInv.2, fun c ns0 => runCall_names_isPrefix c ns0, ?_⟩
  intro herr
  subst herr
  intro c hc k hk nm hn
  exact runCalls_names_present calls Namespace.empty ns h c hc k nm hk hn

theorem C4_registry_invariant_witness :
    (runCalls [GenCall.line "ls" (NamesArg.str "Male") "" (PArg.one (Color.named "blue"))
        (PArg.one (Val.s "-")) (PArg.one 2) [],
      GenCall.point "ps" (NamesArg.str "Male") "" (PArg.one (Color.named "red"))
        (PArg.one (Val.s "none")) (PArg.one 0) [(Val.s "o", 1)] (PArg.one 5) (PArg.one 0)
        (PArg.one 1) []] Namespace.empty).1.style_names.Nodup ∧
    (∀ key m, getAttr (runCalls [GenCall.line "ls" (NamesArg.str "Male") ""
          (PArg.one (Color.named "blue")) (PArg.one (Val.s "-")) (PArg.one 2) [],
        GenCall.point "ps" (NamesArg.str "Male") "" (PArg.one (Color.named "red"))
          (PArg.one (Val.s "none")) (PArg.one 0) [(Val.s "o", 1)] (PArg.one 5) (PArg.one 0)
          (PArg.one 1) []] Namespace.empty).1 key = some (NSVal.cat m) →
      ∀ p ∈ m, p.1 ∈ (runCalls [GenCall.line "ls" (NamesArg.str "Male") ""
          (PArg.one (Color.named "blue")) (PArg.one (Val.s "-")) (PArg.one 2) [],
        GenCall.point "ps" (NamesArg.str "Male") "" (PArg.one (Color.named "red"))
          (PArg.one (Val.s "none")) (PArg.one 0) [(Val.s "o", 1)] (PArg.one 5) (PArg.one 0)
          (PArg.one 1) []] Namespace.empty).1.style_names) ∧
    (∀ (c : GenCall) (ns0 : Namespace), ns0.style_names <+: (runCall c ns0).1.style_names) ∧
    ((runCalls [GenCall.line "ls" (NamesArg.str "Male") "" (PArg.one (Color.named "blue"))
        (PArg.one (Val.s "-")) (PArg.one 2) [],
      GenCall.point "ps" (NamesArg.str "Male") "" (PArg.one (Color.named "red"))
        (PArg.one (Val.s "none")) (PArg.one 0) [(Val.s "o", 1)] (PArg.one 5) (PArg.one 0)
        (PArg.one 1) []] Namespace.empty).2 = none →
      ∀ c ∈ [GenCall.line "ls" (NamesArg.str "Male") "" (PArg.one (Color.named "blue"))
          (PArg.one (Val.s "-")) (PArg.one 2) [],
        GenCall.point "ps" (NamesArg.str "Male") "" (PArg.one (Color.named "red"))
          (PArg.one (Val.s "none")) (PArg.one 0) [(Val.s "o", 1)] (PArg.one 5) (PArg.one 0)
          (PArg.one 1) []], ∀ k, k < callCount c → ∀ nm,
        getName (callNames c) k = some nm →
        nm ∈ (runCalls [GenCall.line "ls" (NamesArg.str "Male") ""
            (PArg.one (Color.named "blue")) (PArg.one (Val.s "-")) (PArg.one 2) [],
          GenCall.point "ps" (NamesArg.str "Male") "" (PArg.one (Color.named "red"))
            (PArg.one (Val.s "none")) (PArg.one 0) [(Val.s "o", 1)] (PArg.one 5)
            (PArg.one 0) (PArg.one 1) []] Namespace.empty).1.style_names) :=
  C4_registry_invariant
    [GenCall.line "ls" (NamesArg.str "Male") "" (PArg.one (Color.named "blue"))
        (PArg.one (Val.s "-")) (PArg.one 2) [],
      GenCall.point "ps" (NamesArg.str "Male") "" (PArg.one (Color.named "red"))
        (PArg.one (Val.s "none")) (PArg.one 0) [(Val.s "o", 1)] (PArg.one 5) (PArg.one 0)
        (PArg.one 1) []]
    (runCalls [GenCall.line "ls" (NamesArg.str "Male") "" (PArg.one (Color.named "blue"))
        (PArg.one (Val.s "-")) (PArg.one 2) [],
      GenCall.point "ps" (NamesArg.str "Male") "" (PArg.one (Color.named "red"))
        (PArg.one (Val.s "none")) (PArg.one 0) [(Val.s "o", 1)] (PArg.one 5) (PArg.one 0)
        (PArg.one 1) []] Namespace.empty).1
    (runCalls [GenCall.line "ls" (NamesArg.str "Male") "" (PArg.one (Color.named "blue"))
        (PArg.one (Val.s "-")) (PArg.one 2) [],
      GenCall.point "ps" (NamesArg.str "Male") "" (PArg.one (Color.named "red"))
        (PArg.one (Val.s "none")) (PArg.one 0) [(Val.s "o", 1)] (PArg.one 5) (PArg.one 0)
        (PArg.one 1) []] Namespace.empty).2
    rfl

/-- C1: broadcasting law for the style expanders make_linestyles, make_pointstyles
and make_fillstyles.  A scalar argument yields the same value at every record
index; when all attribute arguments are scalars the computed style count is one
and exactly one record is generated and registered; the style count is the
running maximum of the sequence-argument lengths starting from one, so any
sequence argument of maximal length m>1 makes the count m; and a call whose
names are a sequence of n distinct names with every other argument a scalar or a
length-n sequence succeeds, generates exactly n records in category order, and
gives every record its per-index attribute values — in particular every scalar
argument contributes the identical value to all n records. -/
theorem C1_broadcasting :
    (∀ (α : Type) (a : α) (k : Nat), pargIndex (PArg.one a) k = some a) ∧
    (∀ (s : String) (c : Color) (ds : Val) (lw : Rat),
      lineN (NamesArg.str s) (PArg.one c) (PArg.one ds) (PArg.one lw) = 1) ∧
    (∀ (s : String) (c : Color) (ds : Val) (lw : Rat) (mk : Marker) (ms mc mw : Rat),
      pointN (NamesArg.str s) (PArg.one c) (PArg.one ds) (PArg.one lw) [mk] (PArg.one ms)
        (PArg.one mc) (PArg.one mw) = 1) ∧
    (∀ (s : String) (c : Color) (ec ew fa : Rat),
      fillN (NamesArg.str s) (PArg.one c) (PArg.one ec) (PArg.one ew) (PArg.one fa) = 1) ∧
    (∀ lens : List (Option Nat),
      styleCount lens = lens.foldl (fun n o => Nat.max n (o.getD 0)) 1) ∧
    (∀ (pfx suffix s : String) (c : Color) (ds : Val) (lw : Rat) (kwargs : StyleDict),
      strContains s '%' = false → s ≠ "" →
      (make_linestyles pfx (NamesArg.str s) suffix (PArg.one c) (PArg.one ds) (PArg.one lw)
          Namespace.empty kwargs).2 = none ∧
      (make_linestyles pfx (NamesArg.str s) suffix (PArg.one c) (PArg.one ds) (PArg.one lw)
          Namespace.empty kwargs).1.style_names = [s] ∧
      getAttr (make_linestyles pfx (NamesArg.str s) suffix (PArg.one c) (PArg.one ds)
          (PArg.one lw) Namespace.empty kwargs).1 (pfx ++ suffix) =
        some (NSVal.cat [(s, lineDict c ds lw kwargs)]) ∧
      getAttr (make_linestyles pfx (NamesArg.str s) suffix (PArg.one c) (PArg.one ds)
          (PArg.one lw) Namespace.empty kwargs).1 (pfx ++ s ++ suffix) =
        some (NSVal.style (lineDict c ds lw kwargs))) ∧
    (∀ (pfx suffix s : String) (c : Color) (ds : Val) (lw : Rat) (mk : Marker)
        (ms mc mw : Rat) (kwargs : StyleDict),
      strContains s '%' = false → s ≠ "" →
      (make_pointstyles pfx (NamesArg.str s) suffix (PArg.one c) (PArg.one ds) (PArg.one lw)
          [mk] (PArg.one ms) (PArg.one mc) (PArg.one mw) Namespace.empty kwargs).2 = none ∧
      (make_pointstyles pfx (NamesArg.str s) suffix (PArg.one c) (PArg.one ds) (PArg.one lw)
          [mk] (PArg.one ms) (PArg.one mc) (PArg.one mw) Namespace.empty
          kwargs).1.style_names = [s] ∧
      getAttr (make_pointstyles pfx (NamesArg.str s) suffix (PArg.one c) (PArg.one ds)
          (PArg.one lw) [mk] (PArg.one ms) (PArg.one mc) (PArg.one mw) Namespace.empty
          kwargs).1 (pfx ++ suffix) =
        some (NSVal.cat [(s, pointDict c ds lw mk ms mc mw kwargs)]) ∧
      getAttr (make_pointstyles pfx (NamesArg.str s) suffix (PArg.one c) (PArg.one ds)
          (PArg.one lw) [mk] (PArg.one ms) (PArg.one mc) (PArg.one mw) Namespace.empty
          kwargs).1 (pfx ++ s ++ suffix) =
        some (NSVal.style (pointDict c ds lw mk ms mc mw kwargs))) ∧
    (∀ (pfx suf s : String) (c : Color) (ec ew fa : Rat) (kwargs : StyleDict),
      strContains s '%' = false → s ≠ "" →
      (make_fillstyles pfx (NamesArg.str s) [some suf] (PArg.one c) (PArg.one ec)
          (PArg.one ew) (PArg.one fa) Namespace.empty kwargs).2 = none ∧
      (make_fillstyles pfx (NamesArg.str s) [some suf] (PArg.one c) (PArg.one ec)
          (PArg.one ew) (PArg.one fa) Namespace.empty kwargs).1.style_names = [s] ∧
      getAttr (make_fillstyles pfx (NamesArg.str s) [some suf] (PArg.one c) (PArg.one ec)
          (PArg.one ew) (PArg.one fa) Namespace.empty kwargs).1 (pfx ++ suf) =
        some (NSVal.cat [(s, fillDict c ec ew fa kwargs 0)]) ∧
      getAttr (make_fillstyles pfx (NamesArg.str s) [some suf] (PArg.one c) (PArg.one ec)
          (PArg.one ew) (PArg.one fa) Namespace.empty kwargs).1 (pfx ++ s ++ suf) =
        some (NSVal.style (fillDict c ec ew fa kwargs 0))) ∧
    (∀ (pfx suffix : String) (nms : List String) (colors : PArg Color) (dashes : PArg Val)
        (lws : PArg Rat) (kwargs : StyleDict),
      nms ≠ [] → nms.Nodup → (∀ x ∈ nms, x ≠ "") →
      (pargLen colors = none ∨ pargLen colors = some nms.length) →
      (pargLen dashes = none ∨ pargLen dashes = some nms.length) →
      (pargLen lws = none ∨ pargLen lws = some nms.length) →
      lineN (NamesArg.seq nms) colors dashes lws = nms.length ∧
      (make_linestyles pfx (NamesArg.seq nms) suffix colors dashes lws Namespace.empty
          kwargs).2 = none ∧
      (make_linestyles pfx (NamesArg.seq nms) suffix colors dashes lws Namespace.empty
          kwargs).1.style_names = nms ∧
      ∃ m, getAttr (make_linestyles pfx (NamesArg.seq nms) suffix colors dashes lws
            Namespace.empty kwargs).1 (pfx ++ suffix) = some (NSVal.cat m) ∧
        m.length = nms.length ∧
        ∀ k, k < nms.length → ∀ (c : Color) (ds : Val) (lw : Rat),
          pargIndex colors k = some c → pargIndex dashes k = some ds →
          pargIndex lws k = some lw →
          lookupPair m (nms.getD k "") = some (lineDict c ds lw kwargs) ∧
          getAttr (make_linestyles pfx (NamesArg.seq nms) suffix colors dashes lws
              Namespace.empty kwargs).1 (pfx ++ nms.getD k "" ++ suffix) =
            some (NSVal.style (lineDict c ds lw kwargs))) ∧
    (∀ (pfx suffix : String) (nms : List String) (colors : PArg Color) (dashes : PArg Val)
        (lws : PArg Rat) (markers : List Marker) (msizes mecs mews : PArg Rat)
        (kwargs : StyleDict),
      nms ≠ [] → nms.Nodup → (∀ x ∈ nms, x ≠ "") →
      (pargLen colors = none ∨ pargLen colors = some nms.length) →
      (pargLen dashes = none ∨ pargLen dashes = some nms.length) →
      (pargLen lws = none ∨ pargLen lws = some nms.length) →
      (markers.length = 1 ∨ markers.length = nms.length) →
      (pargLen msizes = none ∨ pargLen msizes = some nms.length) →
      (pargLen mecs = none ∨ pargLen mecs = some nms.length) →
      (pargLen mews = none ∨ pargLen mews = some nms.length) →
      pointN (NamesArg.seq nms) colors dashes lws markers msizes mecs mews = nms.length ∧
      (make_pointstyles pfx (NamesArg.seq nms) suffix colors dashes lws markers msizes mecs
          mews Namespace.empty kwargs).2 = none ∧
      (make_pointstyles pfx (NamesArg.seq nms) suffix colors dashes lws markers msizes mecs
          mews Namespace.empty kwargs).1.style_names = nms ∧
      ∃ m, getAttr (make_pointstyles pfx (NamesArg.seq nms) suffix colors dashes lws markers
            msizes mecs mews Namespace.empty kwargs).1 (pfx ++ suffix) =
          some (NSVal.cat m) ∧
        m.length = nms.length ∧
        ∀ k, k < nms.length → ∀ (c : Color) (ds : Val) (lw : Rat) (mk : Marker)
            (ms mc mw : Rat),
          pargIndex colors k = some c → pargIndex dashes k = some ds →
          pargIndex lws k = some lw → markerAt markers k = some mk →
          pargIndex msizes k = some ms → pargIndex mecs k = some mc →
          pargIndex mews k = some mw →
          lookupPair m (nms.getD k "") = some (pointDict c ds lw mk ms mc mw kwargs) ∧
          getAttr (make_pointstyles pfx (NamesArg.seq nms) suffix colors dashes lws markers
              msizes mecs mews Namespace.empty kwargs).1 (pfx ++ nms.getD k "" ++ suffix) =
            some (NSVal.style (pointDict c ds lw mk ms mc mw kwargs))) ∧
    (∀ (pfx suf : String) (nms : List String) (colors : PArg Color) (ecs ews fas : PArg Rat)
        (kwargs : StyleDict),
      nms ≠ [] → nms.Nodup → (∀ x ∈ nms, x ≠ "") →
      (pargLen colors = none ∨ pargLen colors = some nms.length) →
      (pargLen ecs = none ∨ pargLen ecs = some nms.length) →
      (pargLen ews = none ∨ pargLen ews = some nms.length) →
      (pargLen fas = none ∨ pargLen fas = some nms.length) →
      fillN (NamesArg.seq nms) colors ecs ews fas = nms.length ∧
      (make_fillstyles pfx (NamesArg.seq nms) [some suf] colors ecs ews fas Namespace.empty
          kwargs).2 = none ∧
      (make_fillstyles pfx (NamesArg.seq nms) [some suf] colors ecs ews fas Namespace.empty
          kwargs).1.style_names = nms ∧
      ∃ m, getAttr (make_fillstyles pfx (NamesArg.seq nms) [some suf] colors ecs ews fas
            Namespace.empty kwargs).1 (pfx ++ suf) = some (NSVal.cat m) ∧
        m.length = nms.length ∧
        ∀ k, k < nms.length → ∀ (c : Color) (ec ew fa : Rat),
          pargIndex colors k = some c → pargIndex ecs k = some ec →
          pargIndex ews k = some ew → pargIndex fas k = some fa →
          lookupPair m (nms.getD k "") = some (fillDict c ec ew fa kwargs 0) ∧
          getAttr (make_fillstyles pfx (NamesArg.seq nms) [some suf] colors ecs ews fas
              Namespace.empty kwargs).1 (pfx ++ nms.getD k "" ++ suf) =
            some (NSVal.style (fillDict c ec ew fa kwargs 0))) := by
  refine ⟨fun α a k => rfl, fun s c ds lw => rfl, fun s c ds lw mk ms mc mw => rfl,
    fun s c ec ew fa => rfl, ?_, ?_, ?_, ?_, ?_, ?_, ?_⟩
  · -- the count is a running maximum
    have hb : ∀ (acc : Nat) (o : Option Nat), bump acc o = Nat.max acc (o.getD 0) := by
      intro acc o
      cases o with
      | none => simp [bump]
      | some m =>
          simp only [bump, Option.getD_some]
          unfold Nat.max
          split
          · rename_i h
            exact (Nat.max_eq_right (Nat.le_of_lt h)).symm
          · rename_i h
            exact (Nat.max_eq_left (by omega)).symm
    have aux : ∀ (lens : List (Option Nat)) (acc : Nat),
        List.foldl bump acc lens = List.foldl (fun n o => Nat.max n (o.getD 0)) acc lens := by
      intro lens
      induction lens with
      | nil => intro acc; rfl
      | cons hd tl ih =>
          intro acc
          simp only [List.foldl_cons, hb]
          exact ih _
    intro lens
    exact aux lens 1
  · -- all-scalar line call
    intro pfx suffix s c ds lw kwargs hs hsne
    have hrun := line_run_const pfx suffix s (PArg.one c) (PArg.one ds) (PArg.one lw) kwargs
      hs hsne (fun k hk => ⟨lineDict c ds lw kwargs, rfl⟩)
    refine ⟨by rw [hrun], by rw [hrun]; rfl, ?_, ?_⟩
    · rw [hrun]
      simp only [constState, getAttr]
      rw [lookupPair_cons_eq]
      rfl
    · rw [hrun]
      simp only [constState, getAttr]
      rw [lookupPair_cons_ne (Ne.symm (str_mid_ne hsne)), lookupPair_cons_eq]
      rfl
  · -- all-scalar point call
    intro pfx suffix s c ds lw mk ms mc mw kwargs hs hsne
    have hrun := point_run_const pfx suffix s (PArg.one c) (PArg.one ds) (PArg.one lw) [mk]
      (PArg.one ms) (PArg.one mc) (PArg.one mw) kwargs hs hsne
      (fun k hk => ⟨pointDict c ds lw mk ms mc mw kwargs, rfl⟩)
    refine ⟨by rw [hrun], by rw [hrun]; rfl, ?_, ?_⟩
    · rw [hrun]
      simp only [constState, getAttr]
      rw [lookupPair_cons_eq]
      rfl
    · rw [hrun]
      simp only [constState, getAttr]
      rw [lookupPair_cons_ne (Ne.symm (str_mid_ne hsne)), lookupPair_cons_eq]
      rfl
  · -- all-scalar fill call with a single present suffix
    intro pfx suf s c ec ew fa kwargs hs hsne
    have hrun := fill_run_const_single pfx suf s (PArg.one c) (PArg.one ec) (PArg.one ew)
      (PArg.one fa) kwargs hs hsne (fun k hk => ⟨fillDict c ec ew fa kwargs 0, rfl⟩)
    refine ⟨by rw [hrun], by rw [hrun]; rfl, ?_, ?_⟩
    · rw [hrun]
      simp only [constState, getAttr]
      rw [lookupPair_cons_eq]
      rfl
    · rw [hrun]
      simp only [constState, getAttr]
      rw [lookupPair_cons_ne (Ne.symm (str_mid_ne hsne)), lookupPair_cons_eq]
      rfl
  · -- sequence line call
    intro pfx suffix nms colors dashes lws kwargs hnil hnd hne hc hd hw
    obtain ⟨hcount, hrun⟩ := line_run_seq pfx suffix nms colors dashes lws kwargs hnil hnd
      hne hc hd hw
    have hinj : ∀ i j, i < nms.length → j < nms.length →
        (fun i => nms.getD i "") i = (fun i => nms.getD i "") j → i = j :=
      fun i j hi hj he => seq_name_inj nms hnd hi hj he
    refine ⟨hcount, by rw [hrun], ?_, ?_⟩
    · rw [hrun]
      show namesUpTo (fun i => nms.getD i "") nms.length = nms
      rw [namesUpTo_take nms (Nat.le_refl _), List.take_length]
    · refine ⟨catUpTo (fun i => nms.getD i "")
        (fun k => (lineRecAt colors dashes lws kwargs k).getD []) nms.length, ?_,
        catUpTo_length _ _ _, ?_⟩
      · rw [hrun]
        simp only [getAttr]
        exact lookupPair_cons_eq _ _ _
      · intro k hk c ds lw hc' hd' hw'
        have hdk : (lineRecAt colors dashes lws kwargs k).getD [] =
            lineDict c ds lw kwargs := by
          simp [lineRecAt, hc', hd', hw']
        constructor
        · simpa [hdk] using lookupPair_catUpTo (n := nms.length)
            (d := fun k => (lineRecAt colors dashes lws kwargs k).getD [])
            hinj (Nat.le_refl _) hk
        · rw [hrun]
          simp only [getAttr, expState]
          have hnek : nms.getD k "" ≠ "" := hne _ (seq_name_mem nms hk)
          rw [lookupPair_cons_ne (Ne.symm (@str_mid_ne pfx suffix (nms.getD k "") hnek))]
          simpa [hdk] using lookupPair_stylesUpTo (n := nms.length)
            (d := fun k => (lineRecAt colors dashes lws kwargs k).getD [])
            hinj (Nat.le_refl _) hk
  · -- sequence point call
    intro pfx suffix nms colors dashes lws markers msizes mecs mews kwargs hnil hnd hne hc
      hd hw hmk hms hmc hmw
    obtain ⟨hcount, hrun⟩ := point_run_seq pfx suffix nms colors dashes lws markers msizes
      mecs mews kwargs hnil hnd hne hc hd hw hmk hms hmc hmw
    have hinj : ∀ i j, i < nms.length → j < nms.length →
        (fun i => nms.getD i "") i = (fun i => nms.getD i "") j → i = j :=
      fun i j hi hj he => seq_name_inj nms hnd hi hj he
    refine ⟨hcount, by rw [hrun], ?_, ?_⟩
    · rw [hrun]
      show namesUpTo (fun i => nms.getD i "") nms.length = nms
      rw [namesUpTo_take nms (Nat.le_refl _), List.take_length]
    · refine ⟨catUpTo (fun i => nms.getD i "")
        (fun k => (pointRecAt colors dashes lws markers msizes mecs mews kwargs k).getD [])
        nms.length, ?_, catUpTo_length _ _ _, ?_⟩
      · rw [hrun]
        simp only [getAttr]
        exact lookupPair_cons_eq _ _ _
      · intro k hk c ds lw mk ms mc mw hc' hd' hw' hmk' hms' hmc' hmw'
        have hdk : (pointRecAt colors dashes lws markers msizes mecs mews kwargs k).getD []
            = pointDict c ds lw mk ms mc mw kwargs := by
          simp [pointRecAt, hc', hd', hw', hmk', hms', hmc', hmw']
        constructor
        · simpa [hdk] using lookupPair_catUpTo (n := nms.length)
            (d := fun k =>
              (pointRecAt colors dashes lws markers msizes mecs mews kwargs k).getD [])
            hinj (Nat.le_refl _) hk
        · rw [hrun]
          simp only [getAttr, expState]
          have hnek : nms.getD k "" ≠ "" := hne _ (seq_name_mem nms hk)
          rw [lookupPair_cons_ne (Ne.symm (@str_mid_ne pfx suffix (nms.getD k "") hnek))]
          simpa [hdk] using lookupPair_stylesUpTo (n := nms.length)
            (d := fun k =>
              (pointRecAt colors dashes lws markers msizes mecs mews kwargs k).getD [])
            hinj (Nat.le_refl _) hk
  · -- sequence fill call with a single present suffix
    intro pfx suf nms colors ecs ews fas kwargs hnil hnd hne hc hec hew hfa
    obtain ⟨hcount, hrun⟩ := fill_run_seq_single pfx suf nms colors ecs ews fas kwargs hnil
      hnd hne hc hec hew hfa
    have hinj : ∀ i j, i < nms.length → j < nms.length →
        (fun i => nms.getD i "") i = (fun i => nms.getD i "") j → i = j :=
      fun i j hi hj he => seq_name_inj nms hnd hi hj he
    refine ⟨hcount, by rw [hrun], ?_, ?_⟩
    · rw [hrun]
      show namesUpTo (fun i => nms.getD i "") nms.length = nms
      rw [namesUpTo_take nms (Nat.le_refl _), List.take_length]
    · refine ⟨catUpTo (fun i => nms.getD i "")
        (fun k => (fillRecAt colors ecs ews fas kwargs k).getD []) nms.length, ?_,
        catUpTo_length _ _ _, ?_⟩
      · rw [hrun]
        simp only [getAttr]
        exact lookupPair_cons_eq _ _ _
      · intro k hk c ec ew fa hc' hec' hew' hfa'
        have hdk : (fillRecAt colors ecs ews fas kwargs k).getD [] =
            fillDict c ec ew fa kwargs 0 := by
          simp [fillRecAt, hc', hec', hew', hfa']
        constructor
        · simpa [hdk] using lookupPair_catUpTo (n := nms.length)
            (d := fun k => (fillRecAt colors ecs ews fas kwargs k).getD [])
            hinj (Nat.le_refl _) hk
        · rw [hrun]
          simp only [getAttr, expState]
          have hnek : nms.getD k "" ≠ "" := hne _ (seq_name_mem nms hk)
          rw [lookupPair_cons_ne (Ne.symm (@str_mid_ne pfx suf (nms.getD k "") hnek))]
          simpa [hdk] using lookupPair_stylesUpTo (n := nms.length)
            (d := fun k => (fillRecAt colors ecs ews fas kwargs k).getD [])
            hinj (Nat.le_refl _) hk

theorem C1_broadcasting_witness :
    ((make_linestyles "ls" (NamesArg.str "Male") "" (PArg.one (Color.named "blue"))
        (PArg.one (Val.s "-")) (PArg.one 2) Namespace.empty []).2 = none ∧
      (make_linestyles "ls" (NamesArg.str "Male") "" (PArg.one (Color.named "blue"))
        (PArg.one (Val.s "-")) (PArg.one 2) Namespace.empty []).1.style_names = ["Male"] ∧
      getAttr (make_linestyles "ls" (NamesArg.str "Male") "" (PArg.one (Color.named "blue"))
        (PArg.one (Val.s "-")) (PArg.one 2) Namespace.empty []).1 ("ls" ++ "") =
        some (NSVal.cat [("Male", lineDict (Color.named "blue") (Val.s "-") 2 [])]) ∧
      getAttr (make_linestyles "ls" (NamesArg.str "Male") "" (PArg.one (Color.named "blue"))
        (PArg.one (Val.s "-")) (PArg.one 2) Namespace.empty []).1 ("ls" ++ "Male" ++ "") =
        some (NSVal.style (lineDict (Color.named "blue") (Val.s "-") 2 []))) ∧
    (lineN (NamesArg.seq ["A", "B"]) (PArg.seq [Color.named "r", Color.named "g"])
        (PArg.one (Val.s "-")) (PArg.one 1) = (["A", "B"] : List String).length ∧
      (make_linestyles "ls" (NamesArg.seq ["A", "B"]) ""
        (PArg.seq [Color.named "r", Color.named "g"]) (PArg.one (Val.s "-")) (PArg.one 1)
        Namespace.empty []).2 = none ∧
      (make_linestyles "ls" (NamesArg.seq ["A", "B"]) ""
        (PArg.seq [Color.named "r", Color.named "g"]) (PArg.one (Val.s "-")) (PArg.one 1)
        Namespace.empty []).1.style_names = ["A", "B"] ∧
      ∃ m, getAttr (make_linestyles "ls" (NamesArg.seq ["A", "B"]) ""
            (PArg.seq [Color.named "r", Color.named "g"]) (PArg.one (Val.s "-")) (PArg.one 1)
            Namespace.empty []).1 ("ls" ++ "") = some (NSVal.cat m) ∧
        m.length = (["A", "B"] : List String).length ∧
        ∀ k, k < (["A", "B"] : List String).length → ∀ (c : Color) (ds : Val) (lw : Rat),
          pargIndex (PArg.seq [Color.named "r", Color.named "g"]) k = some c →
          pargIndex (PArg.one (Val.s "-")) k = some ds →
          pargIndex (PArg.one (1 : Rat)) k = some lw →
          lookupPair m ((["A", "B"] : List String).getD k "") =
            some (lineDict c ds lw []) ∧
          getAttr (make_linestyles "ls" (NamesArg.seq ["A", "B"]) ""
              (PArg.seq [Color.named "r", Color.named "g"]) (PArg.one (Val.s "-"))
              (PArg.one 1) Namespace.empty []).1
            ("ls" ++ (["A", "B"] : List String).getD k "" ++ "") =
            some (NSVal.style (lineDict c ds lw []))) :=
  ⟨C1_broadcasting.2.2.2.2.2.1 "ls" "" "Male" (Color.named "blue") (Val.s "-") 2 []
      (by decide) (by decide),
    C1_broadcasting.2.2.2.2.2.2.2.2.1 "ls" "" ["A", "B"]
      (PArg.seq [Color.named "r", Color.named "g"]) (PArg.one (Val.s "-")) (PArg.one 1) []
      (by decide) (by decide) (by decide) (Or.inr rfl) (Or.inl rfl) (Or.inl rfl)⟩

theorem str_cat_ne {pfx a b : String} (h : a ≠ b) : pfx ++ a ≠ pfx ++ b :=
  fun he => h (str_left_inj he)

theorem str_cat3_ne {pfx nm si sj : String} (h : nm ++ si ≠ sj) :
    pfx ++ nm ++ si ≠ pfx ++ sj := by
  intro he
  apply h
  have he2 : pfx ++ (nm ++ si) = pfx ++ sj := by
    rw [← String.append_assoc]
    exact he
  exact str_left_inj he2

theorem str_empty_append (s : String) : "" ++ s = s :=
  str_data_inj (by simp [String.data_append])

/-- C3: one make_fillstyles call with a single name, a single face color and the
three sub-variant suffixes produces three records that all share the same
facecolor and differ only in the edge-related fields: the with-edge record
(first suffix) carries the lightened face color as edgecolor together with the
line width, the solid record (second suffix) carries edgecolor 'none', and the
transparent record (third suffix) carries edgecolor 'none' together with the
alpha value; each record is registered both as a style attribute and in its
suffix's category mapping. -/
theorem C3_fill_subvariants (pfx nm s0 s1 s2 : String) (c : Color) (ec ew fa : Rat)
    (hs : strContains nm '%' = false)
    (hnd : ([s0, s1, s2] : List String).Nodup)
    (hcol : ∀ si ∈ ([s0, s1, s2] : List String), ∀ sj ∈ ([s0, s1, s2] : List String),
      nm ++ si ≠ sj) :
    (make_fillstyles pfx (NamesArg.str nm) [some s0, some s1, some s2] (PArg.one c)
        (PArg.one ec) (PArg.one ew) (PArg.one fa) Namespace.empty []).2 = none ∧
    (make_fillstyles pfx (NamesArg.str nm) [some s0, some s1, some s2] (PArg.one c)
        (PArg.one ec) (PArg.one ew) (PArg.one fa) Namespace.empty []).1.style_names =
      [nm] ∧
    getAttr (make_fillstyles pfx (NamesArg.str nm) [some s0, some s1, some s2] (PArg.one c)
        (PArg.one ec) (PArg.one ew) (PArg.one fa) Namespace.empty []).1
      (pfx ++ nm ++ s0) = some (NSVal.style [("facecolor", Val.col c),
        ("edgecolor", Val.col (lighter c ec)), ("linewidth", Val.num ew)]) ∧
    getAttr (make_fillstyles pfx (NamesArg.str nm) [some s0, some s1, some s2] (PArg.one c)
        (PArg.one ec) (PArg.one ew) (PArg.one fa) Namespace.empty []).1
      (pfx ++ nm ++ s1) = some (NSVal.style [("facecolor", Val.col c),
        ("edgecolor", Val.s "none")]) ∧
    getAttr (make_fillstyles pfx (NamesArg.str nm) [some s0, some s1, some s2] (PArg.one c)
        (PArg.one ec) (PArg.one ew) (PArg.one fa) Namespace.empty []).1
      (pfx ++ nm ++ s2) = some (NSVal.style [("facecolor", Val.col c),
        ("edgecolor", Val.s "none"), ("alpha", Val.num fa)]) ∧
    getAttr (make_fillstyles pfx (NamesArg.str nm) [some s0, some s1, some s2] (PArg.one c)
        (PArg.one ec) (PArg.one ew) (PArg.one fa) Namespace.empty []).1
      (pfx ++ s0) = some (NSVal.cat [(nm, [("facecolor", Val.col c),
        ("edgecolor", Val.col (lighter c ec)), ("linewidth", Val.num ew)])]) ∧
    getAttr (make_fillstyles pfx (NamesArg.str nm) [some s0, some s1, some s2] (PArg.one c)
        (PArg.one ec) (PArg.one ew) (PArg.one fa) Namespace.empty []).1
      (pfx ++ s1) = some (NSVal.cat [(nm, [("facecolor", Val.col c),
        ("edgecolor", Val.s "none")])]) ∧
    getAttr (make_fillstyles pfx (NamesArg.str nm) [some s0, some s1, some s2] (PArg.one c)
        (PArg.one ec) (PArg.one ew) (PArg.one fa) Namespace.empty []).1
      (pfx ++ s2) = some (NSVal.cat [(nm, [("facecolor", Val.col c),
        ("edgecolor", Val.s "none"), ("alpha", Val.num fa)])]) := by
  have h01 : s0 ≠ s1 := by simp only [List.nodup_cons] at hnd; intro h; exact hnd.1 (by simp [h])
  have h02 : s0 ≠ s2 := by simp only [List.nodup_cons] at hnd; intro h; exact hnd.1 (by simp [h])
  have h12 : s1 ≠ s2 := by simp only [List.nodup_cons] at hnd; intro h; exact hnd.2.1 (by simp [h])
  have hp01 : pfx ++ s0 ≠ pfx ++ s1 := str_cat_ne h01
  have hp02 : pfx ++ s0 ≠ pfx ++ s2 := str_cat_ne h02
  have hp12 : pfx ++ s1 ≠ pfx ++ s2 := str_cat_ne h12
  have hm0 : s0 ∈ ([s0, s1, s2] : List String) := by simp
  have hm1 : s1 ∈ ([s0, s1, s2] : List String) := by simp
  have hm2 : s2 ∈ ([s0, s1, s2] : List String) := by simp
  have hq00 : pfx ++ s0 ≠ pfx ++ nm ++ s0 := Ne.symm (str_cat3_ne (hcol s0 hm0 s0 hm0))
  have hq10 : pfx ++ s1 ≠ pfx ++ nm ++ s0 := Ne.symm (str_cat3_ne (hcol s0 hm0 s1 hm1))
  have hq20 : pfx ++ s2 ≠ pfx ++ nm ++ s0 := Ne.symm (str_cat3_ne (hcol s0 hm0 s2 hm2))
  have hq01 : pfx ++ s0 ≠ pfx ++ nm ++ s1 := Ne.symm (str_cat3_ne (hcol s1 hm1 s0 hm0))
  have hq11 : pfx ++ s1 ≠ pfx ++ nm ++ s1 := Ne.symm (str_cat3_ne (hcol s1 hm1 s1 hm1))
  have hq21 : pfx ++ s2 ≠ pfx ++ nm ++ s1 := Ne.symm (str_cat3_ne (hcol s1 hm1 s2 hm2))
  have hq02 : pfx ++ s0 ≠ pfx ++ nm ++ s2 := Ne.symm (str_cat3_ne (hcol s2 hm2 s0 hm0))
  have hq12 : pfx ++ s1 ≠ pfx ++ nm ++ s2 := Ne.symm (str_cat3_ne (hcol s2 hm2 s1 hm1))
  have hq22 : pfx ++ s2 ≠ pfx ++ nm ++ s2 := Ne.symm (str_cat3_ne (hcol s2 hm2 s2 hm2))
  have hqq01 : pfx ++ nm ++ s0 ≠ pfx ++ nm ++ s1 := @str_cat_ne (pfx ++ nm) s0 s1 h01
  have hqq02 : pfx ++ nm ++ s0 ≠ pfx ++ nm ++ s2 := @str_cat_ne (pfx ++ nm) s0 s2 h02
  have hqq12 : pfx ++ nm ++ s1 ≠ pfx ++ nm ++ s2 := @str_cat_ne (pfx ++ nm) s1 s2 h12
  have hr0 : fillDict c ec ew fa [] 0 = [("facecolor", Val.col c),
      ("edgecolor", Val.col (lighter c ec)), ("linewidth", Val.num ew)] := rfl
  have hr1 : fillDict c ec ew fa [] 1 = [("facecolor", Val.col c),
      ("edgecolor", Val.s "none")] := rfl
  have hr2 : fillDict c ec ew fa [] 2 = [("facecolor", Val.col c),
      ("edgecolor", Val.s "none"), ("alpha", Val.num fa)] := rfl
  have hrun : make_fillstyles pfx (NamesArg.str nm) [some s0, some s1, some s2] (PArg.one c)
      (PArg.one ec) (PArg.one ew) (PArg.one fa) Namespace.empty [] =
      (⟨[nm], [(pfx ++ s0, NSVal.cat [(nm, fillDict c ec ew fa [] 0)]),
        (pfx ++ s1, NSVal.cat [(nm, fillDict c ec ew fa [] 1)]),
        (pfx ++ s2, NSVal.cat [(nm, fillDict c ec ew fa [] 2)]),
        (pfx ++ nm ++ s0, NSVal.style (fillDict c ec ew fa [] 0)),
        (pfx ++ nm ++ s1, NSVal.style (fillDict c ec ew fa [] 1)),
        (pfx ++ nm ++ s2, NSVal.style (fillDict c ec ew fa [] 2))]⟩, none) := by
    simp only [make_fillstyles, ensureCats, ensureCat, getAttr, setAttr, lookupPair, setPair,
      fillN, styleCount, namesLen, pargLen, List.foldl, bump, goLoop, fillStep, getName, hs,
      Bool.false_eq_true, if_false, addStyleName, List.not_mem_nil, List.nil_append, fillGo,
      pargIndex, register, hp01, hp02, hp12, hq00, hq10, hq20, hq01, hq11, hq21, hq02, hq12,
      hq22, hqq01, hqq02, hqq12, ite_false, ite_true, if_neg, if_pos, List.cons_append]
    simp [Namespace.empty]
  rw [hrun]
  refine ⟨rfl, rfl, ?_, ?_, ?_, ?_, ?_, ?_⟩
  · simp only [getAttr]
    rw [lookupPair_cons_ne hq00, lookupPair_cons_ne hq10, lookupPair_cons_ne hq20,
      lookupPair_cons_eq, hr0]
  · simp only [getAttr]
    rw [lookupPair_cons_ne hq01, lookupPair_cons_ne hq11, lookupPair_cons_ne hq21,
      lookupPair_cons_ne hqq01, lookupPair_cons_eq, hr1]
  · simp only [getAttr]
    rw [lookupPair_cons_ne hq02, lookupPair_cons_ne hq12, lookupPair_cons_ne hq22,
      lookupPair_cons_ne hqq02, lookupPair_cons_ne hqq12, lookupPair_cons_eq, hr2]
  · simp only [getAttr]
    rw [lookupPair_cons_eq, hr0]
  · simp only [getAttr]
    rw [lookupPair_cons_ne hp01, lookupPair_cons_eq, hr1]
  · simp only [getAttr]
    rw [lookupPair_cons_ne hp02, lookupPair_cons_ne hp12, lookupPair_cons_eq, hr2]

theorem C3_fill_subvariants_witness :
    (make_fillstyles "fs" (NamesArg.str "PSD") [some "", some "s", some "a"]
        (PArg.one (Color.named "green")) (PArg.one 2) (PArg.one 1) (PArg.one 1)
        Namespace.empty []).2 = none ∧
    (make_fillstyles "fs" (NamesArg.str "PSD") [some "", some "s", some "a"]
        (PArg.one (Color.named "green")) (PArg.one 2) (PArg.one 1) (PArg.one 1)
        Namespace.empty []).1.style_names = ["PSD"] ∧
    getAttr (make_fillstyles "fs" (NamesArg.str "PSD") [some "", some "s", some "a"]
        (PArg.one (Color.named "green")) (PArg.one 2) (PArg.one 1) (PArg.one 1)
        Namespace.empty []).1 ("fs" ++ "PSD" ++ "") =
      some (NSVal.style [("facecolor", Val.col (Color.named "green")),
        ("edgecolor", Val.col (lighter (Color.named "green") 2)),
        ("linewidth", Val.num 1)]) ∧
    getAttr (make_fillstyles "fs" (NamesArg.str "PSD") [some "", some "s", some "a"]
        (PArg.one (Color.named "green")) (PArg.one 2) (PArg.one 1) (PArg.one 1)
        Namespace.empty []).1 ("fs" ++ "PSD" ++ "s") =
      some (NSVal.style [("facecolor", Val.col (Color.named "green")),
        ("edgecolor", Val.s "none")]) ∧
    getAttr (make_fillstyles "fs" (NamesArg.str "PSD") [some "", some "s", some "a"]
        (PArg.one (Color.named "green")) (PArg.one 2) (PArg.one 1) (PArg.one 1)
        Namespace.empty []).1 ("fs" ++ "PSD" ++ "a") =
      some (NSVal.style [("facecolor", Val.col (Color.named "green")),
        ("edgecolor", Val.s "none"), ("alpha", Val.num 1)]) ∧
    getAttr (make_fillstyles "fs" (NamesArg.str "PSD") [some "", some "s", some "a"]
        (PArg.one (Color.named "green")) (PArg.one 2) (PArg.one 1) (PArg.one 1)
        Namespace.empty []).1 ("fs" ++ "") =
      some (NSVal.cat [("PSD", [("facecolor", Val.col (Color.named "green")),
        ("edgecolor", Val.col (lighter (Color.named "green") 2)),
        ("linewidth", Val.num 1)])]) ∧
    getAttr (make_fillstyles "fs" (NamesArg.str "PSD") [some "", some "s", some "a"]
        (PArg.one (Color.named "green")) (PArg.one 2) (PArg.one 1) (PArg.one 1)
        Namespace.empty []).1 ("fs" ++ "s") =
      some (NSVal.cat [("PSD", [("facecolor", Val.col (Color.named "green")),
        ("edgecolor", Val.s "none")])]) ∧
    getAttr (make_fillstyles "fs" (NamesArg.str "PSD") [some "", some "s", some "a"]
        (PArg.one (Color.named "green")) (PArg.one 2) (PArg.one 1) (PArg.one 1)
        Namespace.empty []).1 ("fs" ++ "a") =
      some (NSVal.cat [("PSD", [("facecolor", Val.col (Color.named "green")),
        ("edgecolor", Val.s "none"), ("alpha", Val.num 1)])]) :=
  C3_fill_subvariants "fs" "PSD" "" "s" "a" (Color.named "green") 2 1 1
    (by decide) (by decide) (by decide)
